import Mathlib

set_option maxRecDepth 100000
set_option maxHeartbeats 4000000

/-!
# Verification of the chess_compression library

A shallow embedding, in Lean 4, of the two codecs of the `chess_compression`
Rust crate (a port of the Lichess move compressor):

* the move-stream codec of `src/lib.rs` (Huffman codebook `CODES`, the decoding
  trie built by `build_tree`, the move-ordering heuristic `move_score` /
  `sorted_moves`, and `compress_from_position` / `decompress_from_position`),
* the position codec of `src/position.rs` (`compress` / `decompress` over
  `shakmaty::Setup`, the 4-bit piece codes, and the LEB128 clock fields).

The chess rules oracle (the `shakmaty` crate) is an external collaborator: its
interface (`legal_moves`, `play`, `turn`, `their`, `pawn_attacks`, move
attributes) is modelled abstractly by the `ChessOracle` structure, except for
`pawn_attacks`, which is modelled concretely from the spec's description of the
oracle (a standard pawn-attack mask) because the ordering heuristic's behaviour
depends on its values.

Machine integers are modelled by `Nat`/`Int`; wherever 32/64-bit overflow could
matter the relevant bound is either proved (move scores, §C9) or taken as a
hypothesis reflecting the source type (`u32` clocks, `u64` bitboards).
-/

/-! ## Basic chess data (mirroring `shakmaty` types used by the crate) -/

/-- `shakmaty::Color`. -/
inductive Color where
  | White
  | Black
deriving DecidableEq, Repr, Fintype

/-- The opposite color (`shakmaty::Color::other`). -/
def Color.other : Color → Color
  | .White => .Black
  | .Black => .White

/-- `shakmaty::Role`. `i32::from`/`usize::from` on a role gives 1..6 in this
order (Pawn=1, ..., King=6); we model that numbering with `Role.toNat`. -/
inductive Role where
  | Pawn
  | Knight
  | Bishop
  | Rook
  | Queen
  | King
deriving DecidableEq, Repr, Fintype

/-- The `From<Role> for u32/usize/i32` conversion of shakmaty: 1..6. -/
def Role.toNat : Role → Nat
  | .Pawn => 1
  | .Knight => 2
  | .Bishop => 3
  | .Rook => 4
  | .Queen => 5
  | .King => 6

/-- `shakmaty::Piece`: a color and a role. -/
structure Piece where
  color : Color
  role : Role
deriving DecidableEq, Repr

/-- The attributes of a `shakmaty::Move` that the compressor reads: role of
the moving piece, from-square (`m.from().unwrap()`; the crate supports no
drops), to-square, optional promotion role (as its 1..6 integer), and the
capture flag.  Squares are 0..63, file = sq % 8, rank = sq / 8. -/
structure ChessMove where
  role : Nat
  fromSq : Nat
  toSq : Nat
  promotion : Option Nat
  capture : Bool
deriving DecidableEq, Repr

/-- The unified error type.  `Error` in `src/lib.rs` declares `IO`, `Chess`
and `MoveNotFound`; `src/position.rs` additionally constructs
`SquareOffsetError` and `MissingBytes` variants and propagates LEB128 read
failures (`Leb128`).  There is no `MissingPiece` variant anywhere in the
source.  (The first constructor is named `Io` here for the source's `IO`.) -/
inductive Error where
  | Io
  | Chess
  | MoveNotFound
  | SquareOffsetError (square : Nat) (offset : Int)
  | MissingBytes
  | Leb128
deriving DecidableEq, Repr

/-! ## Bit streams and byte streams

The crate writes Huffman codes through `bitbit::BitWriter` (MSB-first into
bytes, `pad_to_byte` zero-pads the final byte) and reads them through
`bitbit::BitReader<_, MSB>`.  We model a bit stream as `List Bool` and a byte
stream as `List Nat` (each element < 256). -/

/-- Value of an 8-bit group, MSB first (`foldl (2*acc + bit)`). -/
def byteVal (bits : List Bool) : Nat :=
  bits.foldl (fun acc b => 2 * acc + (if b then 1 else 0)) 0

/-- One byte of the `BitWriter` output: the (at most 8) bits, zero-padded on
the right to 8 bits, MSB first. -/
def byteOfBits (bits : List Bool) : Nat :=
  byteVal (bits ++ List.replicate (8 - bits.length) false)

/-- The `BitWriter`: pack an MSB-first bit stream into bytes, zero-padding the
final partial byte (`pad_to_byte`). -/
def bitsToBytes : List Bool → List Nat
  | [] => []
  | b :: rest => byteOfBits ((b :: rest).take 8) :: bitsToBytes ((b :: rest).drop 8)
termination_by bits => bits.length
decreasing_by
  simp [List.length_drop]
  omega

/-- The 8 bits of one byte, MSB first (what `BitReader<_, MSB>` yields). -/
def bitsOfByte (b : Nat) : List Bool :=
  [b.testBit 7, b.testBit 6, b.testBit 5, b.testBit 4,
   b.testBit 3, b.testBit 2, b.testBit 1, b.testBit 0]

/-- The `BitReader`: the bit stream of a byte stream, MSB first. -/
def bytesToBits (bytes : List Nat) : List Bool :=
  bytes.flatMap bitsOfByte

/-! ## The Huffman codebook (`CODES` in `src/lib.rs`)

Each entry is `Symbol(code, bit_length)`; entry `i` is the code of symbol `i`.
Reproduced bit-for-bit from the source. -/

/-- The 256-entry codebook `CODES` of `src/lib.rs`, as (code, length) pairs. -/
def CODES : List (Nat × Nat) := [
  (0b00, 2),
  (0b100, 3),
  (0b1101, 4),
  (0b1010, 4),
  (0b0101, 4),
  (0b11101, 5),
  (0b10111, 5),
  (0b01110, 5),
  (0b01100, 5),
  (0b01000, 5),
  (0b111101, 6),
  (0b111001, 6),
  (0b111100, 6),
  (0b110011, 6),
  (0b110010, 6),
  (0b110000, 6),
  (0b101101, 6),
  (0b101100, 6),
  (0b011111, 6),
  (0b011011, 6),
  (0b010011, 6),
  (0b011010, 6),
  (0b1111111, 7),
  (0b1111101, 7),
  (0b1111110, 7),
  (0b1111100, 7),
  (0b1110000, 7),
  (0b1100011, 7),
  (0b0111101, 7),
  (0b0100101, 7),
  (0b0100100, 7),
  (0b11100010, 8),
  (0b11000101, 8),
  (0b01111001, 8),
  (0b111000111, 9),
  (0b110001001, 9),
  (0b011110001, 9),
  (0b011110000, 9),
  (0b1110001100, 10),
  (0b1100010000, 10),
  (0b11100011010, 11),
  (0b11000100010, 11),
  (0b111000110110, 12),
  (0b110001000110, 12),
  (0b1110001101110, 13),
  (0b1100010001110, 13),
  (0b11100011011110, 14),
  (0b11000100011110, 14),
  (0b111000110111110, 15),
  (0b110001000111110, 15),
  (0b1110001101111110, 16),
  (0b1100010001111110, 16),
  (0b11000100011111111, 17),
  (0b111000110111111111, 18),
  (0b111000110111111101, 18),
  (0b110001000111111100, 18),
  (0b1110001101111111100, 19),
  (0b1100010001111111011, 19),
  (0b11100011011111111011, 20),
  (0b11100011011111110010, 20),
  (0b11100011011111110000, 20),
  (0b111000110111111110101, 21),
  (0b111000110111111100110, 21),
  (0b111000110111111100010, 21),
  (0b110001000111111101001, 21),
  (0b110001000111111101000, 21),
  (0b1110001101111111101000, 22),
  (0b1110001101111111000110, 22),
  (0b1100010001111111010111, 22),
  (0b1100010001111111010101, 22),
  (0b11100011011111111010011, 23),
  (0b11100011011111110011110, 23),
  (0b11100011011111110001110, 23),
  (0b11100011011111110001111, 23),
  (0b11000100011111110101100, 23),
  (0b111000110111111100111011, 24),
  (0b111000110111111110100100, 24),
  (0b111000110111111100111111, 24),
  (0b111000110111111100111010, 24),
  (0b110001000111111101011011, 24),
  (0b110001000111111101010011, 24),
  (0b110001000111111101010001, 24),
  (0b1110001101111111001110011, 25),
  (0b1110001101111111001110001, 25),
  (0b1110001101111111001110010, 25),
  (0b1100010001111111010100101, 25),
  (0b1100010001111111010110100, 25),
  (0b1100010001111111010100001, 25),
  (0b11100011011111110011111011, 26),
  (0b11100011011111110011111001, 26),
  (0b11100011011111110011111010, 26),
  (0b11100011011111110011111000, 26),
  (0b11000100011111110101101011, 26),
  (0b111000110111111110100101111, 27),
  (0b110001000111111101011010100, 27),
  (0b110001000111111101011010101, 27),
  (0b111000110111111100111000010, 27),
  (0b111000110111111100111000011, 27),
  (0b110001000111111101010010011, 27),
  (0b1110001101111111101001010011, 28),
  (0b1100010001111111010100100101, 28),
  (0b1110001101111111001110000011, 28),
  (0b1110001101111111001110000010, 28),
  (0b1110001101111111001110000000, 28),
  (0b11100011011111110011100000010, 29),
  (0b11000100011111110101000001001, 29),
  (0b11100011011111110011100000011, 29),
  (0b11000100011111110101000001000, 29),
  (0b11000100011111110101000000011, 29),
  (0b110001000111111101010000011110, 30),
  (0b111000110111111110100101100110, 30),
  (0b111000110111111110100101010111, 30),
  (0b110001000111111101010000001101, 30),
  (0b111000110111111110100101100010, 30),
  (0b110001000111111101010000001000, 30),
  (0b110001000111111101010000000101, 30),
  (0b110001000111111101010000000000, 30),
  (0b110001000111111101010000001010, 30),
  (0b110001000111111101010010001101, 30),
  (0b110001000111111101010010010011, 30),
  (0b110001000111111101010010010010, 30),
  (0b110001000111111101010010010001, 30),
  (0b110001000111111101010010010000, 30),
  (0b110001000111111101010010001011, 30),
  (0b110001000111111101010010001010, 30),
  (0b110001000111111101010010001001, 30),
  (0b110001000111111101010010001000, 30),
  (0b110001000111111101010010000111, 30),
  (0b110001000111111101010010000110, 30),
  (0b110001000111111101010010000011, 30),
  (0b110001000111111101010010000010, 30),
  (0b110001000111111101010000011011, 30),
  (0b110001000111111101010000011010, 30),
  (0b110001000111111101010000011001, 30),
  (0b110001000111111101010000011000, 30),
  (0b110001000111111101010000010101, 30),
  (0b110001000111111101010000010100, 30),
  (0b110001000111111101010010000101, 30),
  (0b110001000111111101010010000100, 30),
  (0b110001000111111101010000011111, 30),
  (0b110001000111111101010000011101, 30),
  (0b110001000111111101010000011100, 30),
  (0b110001000111111101010010000001, 30),
  (0b110001000111111101010010000000, 30),
  (0b110001000111111101010000001111, 30),
  (0b110001000111111101010000001110, 30),
  (0b110001000111111101010000001100, 30),
  (0b110001000111111101010000010111, 30),
  (0b110001000111111101010000010110, 30),
  (0b110001000111111101010000001001, 30),
  (0b110001000111111101010000000100, 30),
  (0b110001000111111101010000000011, 30),
  (0b110001000111111101010000000010, 30),
  (0b110001000111111101010000000001, 30),
  (0b110001000111111101010000001011, 30),
  (0b110001000111111101010010001111, 30),
  (0b110001000111111101010010001110, 30),
  (0b110001000111111101010010001100, 30),
  (0b1110001101111111101001010111101, 31),
  (0b1110001101111111101001010111111, 31),
  (0b1110001101111111101001010100010, 31),
  (0b1110001101111111101001011011111, 31),
  (0b1110001101111111101001010100100, 31),
  (0b1110001101111111101001010111001, 31),
  (0b1110001101111111101001011011010, 31),
  (0b1110001101111111101001011010010, 31),
  (0b1110001101111111101001011010000, 31),
  (0b1110001101111111101001010111010, 31),
  (0b1110001101111111101001010001011, 31),
  (0b1110001101111111101001010001010, 31),
  (0b1110001101111111101001010001001, 31),
  (0b1110001101111111101001010001000, 31),
  (0b1110001101111111101001010000111, 31),
  (0b1110001101111111101001010000110, 31),
  (0b1110001101111111101001010000101, 31),
  (0b1110001101111111101001010000100, 31),
  (0b1110001101111111101001011010111, 31),
  (0b1110001101111111101001011010110, 31),
  (0b1110001101111111101001011010101, 31),
  (0b1110001101111111101001011010100, 31),
  (0b1110001101111111101001010110111, 31),
  (0b1110001101111111101001010110110, 31),
  (0b1110001101111111101001010010101, 31),
  (0b1110001101111111101001010010100, 31),
  (0b1110001101111111101001010110101, 31),
  (0b1110001101111111101001010110100, 31),
  (0b1110001101111111101001010010111, 31),
  (0b1110001101111111101001010010110, 31),
  (0b1110001101111111101001010110001, 31),
  (0b1110001101111111101001010110000, 31),
  (0b1110001101111111101001010010011, 31),
  (0b1110001101111111101001010010010, 31),
  (0b1110001101111111101001011101101, 31),
  (0b1110001101111111101001011101100, 31),
  (0b1110001101111111101001011101011, 31),
  (0b1110001101111111101001011101010, 31),
  (0b1110001101111111101001011100111, 31),
  (0b1110001101111111101001011100110, 31),
  (0b1110001101111111101001010010001, 31),
  (0b1110001101111111101001010010000, 31),
  (0b1110001101111111101001011100011, 31),
  (0b1110001101111111101001011100010, 31),
  (0b1110001101111111101001011100001, 31),
  (0b1110001101111111101001011100000, 31),
  (0b1110001101111111101001011101001, 31),
  (0b1110001101111111101001011101000, 31),
  (0b1110001101111111101001010001111, 31),
  (0b1110001101111111101001010001110, 31),
  (0b1110001101111111101001010000011, 31),
  (0b1110001101111111101001010000010, 31),
  (0b1110001101111111101001010001101, 31),
  (0b1110001101111111101001010001100, 31),
  (0b1110001101111111101001011001111, 31),
  (0b1110001101111111101001011001110, 31),
  (0b1110001101111111101001010000001, 31),
  (0b1110001101111111101001010000000, 31),
  (0b1110001101111111101001011011001, 31),
  (0b1110001101111111101001011011000, 31),
  (0b1110001101111111101001011100101, 31),
  (0b1110001101111111101001011100100, 31),
  (0b1110001101111111101001010101101, 31),
  (0b1110001101111111101001010101100, 31),
  (0b1110001101111111101001010110011, 31),
  (0b1110001101111111101001010110010, 31),
  (0b1110001101111111101001010101001, 31),
  (0b1110001101111111101001010101000, 31),
  (0b1110001101111111101001011101111, 31),
  (0b1110001101111111101001011101110, 31),
  (0b1110001101111111101001011001011, 31),
  (0b1110001101111111101001011001010, 31),
  (0b1110001101111111101001011000011, 31),
  (0b1110001101111111101001011000010, 31),
  (0b1110001101111111101001010101011, 31),
  (0b1110001101111111101001010101010, 31),
  (0b1110001101111111101001011001001, 31),
  (0b1110001101111111101001011001000, 31),
  (0b1110001101111111101001011000111, 31),
  (0b1110001101111111101001011000110, 31),
  (0b1110001101111111101001011000001, 31),
  (0b1110001101111111101001011000000, 31),
  (0b1110001101111111101001010111100, 31),
  (0b1110001101111111101001010100111, 31),
  (0b1110001101111111101001010100110, 31),
  (0b1110001101111111101001010111110, 31),
  (0b1110001101111111101001010100011, 31),
  (0b1110001101111111101001010100001, 31),
  (0b1110001101111111101001010100000, 31),
  (0b1110001101111111101001011011110, 31),
  (0b1110001101111111101001010100101, 31),
  (0b1110001101111111101001011011101, 31),
  (0b1110001101111111101001011011100, 31),
  (0b1110001101111111101001010111000, 31),
  (0b1110001101111111101001011011011, 31),
  (0b1110001101111111101001011010001, 31),
  (0b1110001101111111101001011010011, 31),
  (0b1110001101111111101001010111011, 31)
]

/-- The (code, length) pair of symbol `s` (`CODES[s]`). -/
def codeOf (s : Nat) : Nat × Nat := CODES.getD s (0, 0)

/-- The bits of symbol `s`'s Huffman code, MSB first: what
`writer.write_bits(code.0, code.1)` emits. -/
def codeBits (s : Nat) : List Bool :=
  let c := codeOf s
  (List.range c.2).map (fun k => c.1.testBit (c.2 - 1 - k))

/-! ## The Huffman trie (`Node`, `build_tree`, `read` in `src/lib.rs`) -/

/-- The trie node type of `src/lib.rs`. -/
inductive Node where
  | Interior (zero : Node) (one : Node)
  | Leaf (n : Nat)
deriving DecidableEq, Repr

/-- The linear scan of `build_tree`: the first `i ∈ 0..=255` with
`CODES[i].0 == code && CODES[i].1 == bits`. -/
def findSym (code bits : Nat) : Option Nat :=
  (List.range 256).find? (fun i => (codeOf i).1 = code ∧ (codeOf i).2 = bits)

/-- `build_tree` of `src/lib.rs`, with a fuel parameter making the recursion
structural.  The Rust function recurses unboundedly; fuel exhaustion is marked
by the out-of-range leaf `Leaf 256` (no genuine symbol is 256), and
`noFuelLeaf` below certifies that with fuel 32 the marker is never produced,
i.e. the Rust recursion terminates. -/
def buildTree : Nat → Nat → Nat → Node
  | 0, _, _ => .Leaf 256
  | fuel + 1, code, bits =>
    match findSym code bits with
    | some s => .Leaf s
    | none =>
      .Interior (buildTree fuel (code <<< 1) (bits + 1))
        (buildTree fuel ((code <<< 1) ||| 1) (bits + 1))

/-- The lazily-initialized decoding trie `ROOT` of `src/lib.rs`. -/
def ROOT : Node := buildTree 32 0 0

/-- `true` iff no fuel-exhaustion marker occurs in the tree: certifies the
termination of the unbounded Rust recursion `build_tree(0, 0)`. -/
def noFuelLeaf : Node → Bool
  | .Leaf n => n ≠ 256
  | .Interior z o => noFuelLeaf z && noFuelLeaf o

/-- Height of a trie: the number of bits the decoder reads, in the worst
case, to reach a leaf. -/
def treeDepth : Node → Nat
  | .Leaf _ => 0
  | .Interior z o => 1 + max (treeDepth z) (treeDepth o)

/-- The decoder `read` of `src/lib.rs`: starting at a node, read one bit per
interior node (1 → `one`, 0 → `zero`) until a leaf; return the leaf's symbol
and the unread rest.  `none` models the propagated I/O error when the reader
is exhausted mid-descent. -/
def decodeT : Node → List Bool → Option (Nat × List Bool)
  | .Leaf n, bits => some (n, bits)
  | .Interior _ _, [] => none
  | .Interior z o, b :: bs => decodeT (if b then o else z) bs

/-- Descend a trie along exactly the given bits; `some s` iff that path ends
exactly at leaf `s`. -/
def followPath : Node → List Bool → Option Nat
  | .Leaf n, [] => some n
  | .Leaf _, _ :: _ => none
  | .Interior _ _, [] => none
  | .Interior z o, b :: bs => followPath (if b then o else z) bs

/-- One codebook entry is a (non-strict) prefix of another. -/
def isPrefixCode (ci li cj lj : Nat) : Prop :=
  li ≤ lj ∧ cj >>> (lj - li) = ci

/-! ## Move ordering (`PSQT`, `move_value`, `move_score`, `sorted_moves`) -/

/-- The six piece-square tables `PSQT` of `src/lib.rs`, in role order
Pawn, Knight, Bishop, Rook, Queen, King, reproduced exactly. -/
def PSQT : List (List Int) := [
   [0, 0, 0, 0, 0, 0, 0, 0,
    50, 50, 50, 50, 50, 50, 50, 50,
    10, 10, 20, 30, 30, 20, 10, 10,
    5, 5, 10, 25, 25, 10, 5, 5,
    0, 0, 0, 20, 21, 0, 0, 0,
    5, -5, -10, 0, 0, -10, -5, 5,
    5, 10, 10, -31, -31, 10, 10, 5,
    0, 0, 0, 0, 0, 0, 0, 0],
   [-50, -40, -30, -30, -30, -30, -40, -50,
    -40, -20, 0, 0, 0, 0, -20, -40,
    -30, 0, 10, 15, 15, 10, 0, -30,
    -30, 5, 15, 20, 20, 15, 5, -30,
    -30, 0, 15, 20, 20, 15, 0, -30,
    -30, 5, 10, 15, 15, 11, 5, -30,
    -40, -20, 0, 5, 5, 0, -20, -40,
    -50, -40, -30, -30, -30, -30, -40, -50],
   [-20, -10, -10, -10, -10, -10, -10, -20,
    -10, 0, 0, 0, 0, 0, 0, -10,
    -10, 0, 5, 10, 10, 5, 0, -10,
    -10, 5, 5, 10, 10, 5, 5, -10,
    -10, 0, 10, 10, 10, 10, 0, -10,
    -10, 10, 10, 10, 10, 10, 10, -10,
    -10, 5, 0, 0, 0, 0, 5, -10,
    -20, -10, -10, -10, -10, -10, -10, -20],
   [0, 0, 0, 0, 0, 0, 0, 0,
    5, 10, 10, 10, 10, 10, 10, 5,
    -5, 0, 0, 0, 0, 0, 0, -5,
    -5, 0, 0, 0, 0, 0, 0, -5,
    -5, 0, 0, 0, 0, 0, 0, -5,
    -5, 0, 0, 0, 0, 0, 0, -5,
    -5, 0, 0, 0, 0, 0, 0, -5,
    0, 0, 0, 5, 5, 0, 0, 0],
   [-20, -10, -10, -5, -5, -10, -10, -20,
    -10, 0, 0, 0, 0, 0, 0, -10,
    -10, 0, 5, 5, 5, 5, 0, -10,
    -5, 0, 5, 5, 5, 5, 0, -5,
    0, 0, 5, 5, 5, 5, 0, -5,
    -10, 5, 5, 5, 5, 5, 0, -10,
    -10, 0, 5, 0, 0, 0, 0, -10,
    -20, -10, -10, -5, -5, -10, -10, -20],
   [-30, -40, -40, -50, -50, -40, -40, -30,
    -30, -40, -40, -50, -50, -40, -40, -30,
    -30, -40, -40, -50, -50, -40, -40, -30,
    -30, -40, -40, -50, -50, -40, -40, -30,
    -20, -30, -30, -40, -40, -30, -30, -20,
    -10, -20, -20, -20, -20, -20, -20, -10,
    20, 20, 0, 0, 0, 0, 20, 20,
    0, 30, 10, 0, 0, 10, 30, 0]
]

/-- `PSQT[roleIdx][sq]` (0 outside the tables; the crate only indexes with
`roleIdx < 6` and `sq < 64`). -/
def psqtAt (roleIdx sq : Nat) : Int :=
  (PSQT.getD roleIdx []).getD sq 0

/-- Modelled from the spec: the chess rules oracle's
`pawn_attacks(color, square)` (shakmaty's constant-folded attack mask): the
bitboard of squares attacked by a pawn of `color` standing on `sq`. -/
def pawnAttacks (c : Color) (sq : Nat) : Nat :=
  let file := sq % 8
  match c with
  | .White =>
    (if 0 < file ∧ sq + 7 < 64 then 1 <<< (sq + 7) else 0) |||
      (if file < 7 ∧ sq + 9 < 64 then 1 <<< (sq + 9) else 0)
  | .Black =>
    (if 0 < file ∧ 9 ≤ sq then 1 <<< (sq - 9) else 0) |||
      (if file < 7 ∧ 7 ≤ sq then 1 <<< (sq - 7) else 0)

/-- `move_value` of `src/lib.rs`: PSQT difference between the destination and
origin squares, both flipped vertically (`sq XOR 56`) iff the side to move is
White. -/
def moveValue (turn : Color) (m : ChessMove) : Int :=
  let roleIdx := m.role - 1
  let toIdx := if turn = Color.White then m.toSq ^^^ 56 else m.toSq
  let fromIdx := if turn = Color.White then m.fromSq ^^^ 56 else m.fromSq
  psqtAt roleIdx toIdx - psqtAt roleIdx fromIdx

/-- The `defending_pawns` bitboard computed inside `move_score`:
`shakmaty::attacks::pawn_attacks(position.turn(), m.to()) &
position.their(Role::Pawn)`. -/
def defendingPawns (turn : Color) (theirPawns toSq : Nat) : Nat :=
  pawnAttacks turn toSq &&& theirPawns

/-- `move_score` of `src/lib.rs`.  The arithmetic is on `i32` in the source;
the composite provably stays far inside the `i32` range (see the score-range
theorem), so mathematical integers model it exactly. -/
def moveScore (turn : Color) (theirPawns : Nat) (m : ChessMove) : Int :=
  let dp := defendingPawns turn theirPawns m.toSq
  let defendingPawnScore : Int := if dp = 0 then 6 else 6 - (m.role : Int)
  let mv := moveValue turn m
  let score :=
    (match m.promotion with
     | some promoted => ((promoted : Int) - 1) * 2 ^ 26
     | none => 0)
    + (if m.capture then 2 ^ 25 else 0)
    + defendingPawnScore * 2 ^ 22
    + (512 + mv) * 2 ^ 12
    + (m.toSq : Int) * 2 ^ 6
    + (m.fromSq : Int) ;
  -score

/-- The interface of the external chess rules oracle (the `shakmaty` crate)
that the move codec uses: legal-move listing, move application (`none` models
a `PlayError`), side to move, and the enemy-pawn bitboard
`position.their(Role::Pawn)`. -/
structure ChessOracle (Pos : Type) where
  legalMoves : Pos → List ChessMove
  play : Pos → ChessMove → Option Pos
  turn : Pos → Color
  theirPawns : Pos → Nat

/-- `sorted_moves` of `src/lib.rs`: the legal moves of the position, stably
sorted ascending by `move_score` (itertools `sorted_by_key`). -/
def sortedMoves {Pos : Type} (O : ChessOracle Pos) (p : Pos) : List ChessMove :=
  (O.legalMoves p).mergeSort
    (fun a b =>
      decide (moveScore (O.turn p) (O.theirPawns p) a
        ≤ moveScore (O.turn p) (O.theirPawns p) b))

/-! ## The move codec (`write_move`, `read_move`, `compress_from_position`,
`decompress_from_position`) -/

/-- `write_move` of `src/lib.rs`: find the move's index in the sorted legal
moves, emit the Huffman code of that index as a `u8` symbol (`idx as u8`,
hence the `% 256`), else fail with `MoveNotFound`.  The writer is modelled by
the returned bit list, which the caller appends to its stream: nothing else
changes. -/
def writeMove {Pos : Type} (O : ChessOracle Pos) (m : ChessMove) (p : Pos) :
    Except Error (List Bool) :=
  let moves := sortedMoves O p
  match moves.findIdx? (fun r => r == m) with
  | some idx => .ok (codeBits (idx % 256))
  | none => .error Error.MoveNotFound

/-- Outcome of a decoding step: success, a returned `Error`, or a Rust panic
(which is not an `Error` value). -/
inductive ReadResult (α : Type) where
  | ok (a : α)
  | error (e : Error)
  | panicked
deriving DecidableEq, Repr

/-- `read_move` of `src/lib.rs`: decode one Huffman symbol by trie descent
(bit-reader exhaustion gives `Error::IO`), then index the sorted legal moves
with it.  The source indexes with `moves[idx as usize]`, which panics when
`idx` is out of bounds; `panicked` records that outcome. -/
def readMove {Pos : Type} (O : ChessOracle Pos) (bits : List Bool) (p : Pos) :
    ReadResult (ChessMove × List Bool) :=
  match decodeT ROOT bits with
  | none => .error Error.Io
  | some (idx, rest) =>
    let moves := sortedMoves O p
    if h : idx < moves.length then .ok (moves.get ⟨idx, h⟩, rest)
    else .panicked

/-- The ply loop of `compress_from_position`, at the bit level: write each
move and play it. -/
def compressBits {Pos : Type} (O : ChessOracle Pos) :
    List ChessMove → Pos → Except Error (List Bool)
  | [], _ => .ok []
  | m :: ms, p =>
    match writeMove O m p with
    | .error e => .error e
    | .ok w =>
      match O.play p m with
      | some p2 =>
        match compressBits O ms p2 with
        | .ok rest => .ok (w ++ rest)
        | .error e => .error e
      | none => .error Error.Chess

/-- `compress_from_position` of `src/lib.rs`: write all moves, then
`pad_to_byte` (byte packing with zero padding). -/
def compressFromPosition {Pos : Type} (O : ChessOracle Pos)
    (moves : List ChessMove) (p : Pos) : Except Error (List Nat) :=
  (compressBits O moves p).map bitsToBytes

/-- The ply loop of `decompress_from_position`, at the bit level. -/
def decompressBits {Pos : Type} (O : ChessOracle Pos) :
    Nat → List Bool → Pos → ReadResult (List ChessMove)
  | 0, _, _ => .ok []
  | n + 1, bits, p =>
    match readMove O bits p with
    | .ok (m, rest) =>
      match O.play p m with
      | some p2 =>
        match decompressBits O n rest p2 with
        | .ok ms => .ok (m :: ms)
        | .error e => .error e
        | .panicked => .panicked
      | none => .error Error.Chess
    | .error e => .error e
    | .panicked => .panicked

/-- `decompress_from_position` of `src/lib.rs`: read `plies` moves from the
MSB-first bit stream of the input bytes, replaying each. -/
def decompressFromPosition {Pos : Type} (O : ChessOracle Pos)
    (bytes : List Nat) (plies : Nat) (p : Pos) : ReadResult (List ChessMove) :=
  decompressBits O plies (bytesToBits bytes) p

/-- A move sequence each of whose moves is legal (member of the oracle's
legal-move list, and applicable) in the position reached by playing the
preceding moves.  The length bound per position records the standard-chess
invariant `L ≤ 256` stated by the spec (the source casts the index with
`as u8`). -/
inductive LegalSeq {Pos : Type} (O : ChessOracle Pos) : Pos → List ChessMove → Prop where
  | nil (p : Pos) : LegalSeq O p []
  | cons {p p2 : Pos} {m : ChessMove} {ms : List ChessMove} :
      m ∈ O.legalMoves p → (O.legalMoves p).length ≤ 256 →
      O.play p m = some p2 → LegalSeq O p2 ms → LegalSeq O p (m :: ms)

/-! ## LEB128 (the `leb128` crate: unsigned only) -/

/-- `leb128::write::unsigned`: 7 data bits per byte, low bits first, MSB of
each byte is the continuation flag. -/
def lebWrite (x : Nat) : List Nat :=
  if x < 128 then [x] else (x % 128 + 128) :: lebWrite (x / 128)
termination_by x
decreasing_by
  exact Nat.div_lt_self (by omega) (by omega)

/-- `leb128::read::unsigned` on a byte list: `none` models the crate's read
errors (truncated varint).  The crate's u64-shift-overflow failure cannot
occur on any stream this library writes and is not modelled. -/
def lebRead : List Nat → Option (Nat × List Nat)
  | [] => none
  | b :: rest =>
    if b < 128 then some (b, rest)
    else
      match lebRead rest with
      | some (v, r2) => some (v * 128 + (b - 128), r2)
      | none => none

/-! ## The position codec (`src/position.rs`)

`shakmaty::Setup` is modelled with the board as a 64-entry list
(index = square), castling rights as a bitboard (`Nat`, bit = unmoved-rook
square), and the clocks as `Nat` (u32 in the source; theorems carry the
corresponding bounds). -/

/-- The fields of `shakmaty::Setup` that the position codec reads and
writes. -/
structure Setup where
  board : List (Option Piece)
  turn : Color
  castlingRights : Nat
  epSquare : Option Nat
  halfmoves : Nat
  fullmoves : Nat
deriving DecidableEq, Repr

/-- `Setup::empty()`: empty board, White to move, no rights, no ep square,
halfmoves 0, fullmoves 1. -/
def Setup.empty : Setup :=
  ⟨List.replicate 64 none, Color.White, 0, none, 0, 1⟩

/-- The piece on a square (`board.piece_at`). -/
def boardGet (board : List (Option Piece)) (sq : Nat) : Option Piece :=
  board.getD sq none

/-- `shakmaty::Square::offset`: `none` when the result leaves 0..63. -/
def squareOffset (sq : Nat) (off : Int) : Option Nat :=
  let r : Int := (sq : Int) + off
  if 0 ≤ r ∧ r < 64 then some r.toNat else none

/-- The occupied squares with their pieces, in ascending square order (the
iteration order of `shakmaty::Board`). -/
def occupiedList (board : List (Option Piece)) : List (Nat × Piece) :=
  (List.range 64).filterMap (fun i => (boardGet board i).map (fun p => (i, p)))

/-- `board.occupied()`: the occupancy bitboard, bit `i` set iff square `i`
holds a piece. -/
def occupiedBB (board : List (Option Piece)) : Nat :=
  (occupiedList board).foldl (fun acc x => acc ||| (1 <<< x.1)) 0

/-- `u64::to_be_bytes` generalized: the `k` big-endian base-256 digits of
`n`. -/
def beBytes (k n : Nat) : List Nat :=
  match k with
  | 0 => []
  | k + 1 => beBytes k (n / 256) ++ [n % 256]

/-- `u64::from_be_bytes`: value of a big-endian byte list. -/
def fromBe (bytes : List Nat) : Nat :=
  bytes.foldl (fun acc b => acc * 256 + b) 0

/-- `piece_value` of `src/position.rs`: the 4-bit code of a piece on a
square.  A pawn on the `pawn_pushed_to` square is 12 regardless of color;
rooks on `castling_rights` squares are 13/14; the black king is 15 exactly
when Black is to move. -/
def pieceValue (piece : Piece) (square : Nat) (blackTurn : Bool)
    (unmovedRooks pawnPushedTo : Nat) : Nat :=
  if piece.role = Role.Pawn ∧ pawnPushedTo.testBit square then 12
  else
    match piece with
    | ⟨Color.White, Role.Pawn⟩ => 0
    | ⟨Color.Black, Role.Pawn⟩ => 1
    | ⟨Color.White, Role.Knight⟩ => 2
    | ⟨Color.Black, Role.Knight⟩ => 3
    | ⟨Color.White, Role.Bishop⟩ => 4
    | ⟨Color.Black, Role.Bishop⟩ => 5
    | ⟨Color.White, Role.Rook⟩ => if unmovedRooks.testBit square then 13 else 6
    | ⟨Color.Black, Role.Rook⟩ => if unmovedRooks.testBit square then 14 else 7
    | ⟨Color.White, Role.Queen⟩ => 8
    | ⟨Color.Black, Role.Queen⟩ => 9
    | ⟨Color.White, Role.King⟩ => 10
    | ⟨Color.Black, Role.King⟩ => if blackTurn then 15 else 11

/-- Nibble packing of the compressor: two 4-bit codes per byte, FIRST nibble
in the low half (`(upper << 4) | lower`), an odd final nibble padded with a
zero upper half. -/
def packNibbles : List Nat → List Nat
  | [] => []
  | [a] => [(0 <<< 4) ||| a]
  | a :: b :: rest => ((b <<< 4) ||| a) :: packNibbles rest

/-- The `pawn_pushed_to` bitboard of `compress`: the square in front of the
en-passant target from the mover's perspective (`+8` when Black is to move,
else `-8`), or the empty bitboard when there is no ep square. -/
def pawnPushedToBB (p : Setup) : Except Error Nat :=
  match p.epSquare with
  | none => .ok 0
  | some sq =>
    let offset : Int := if p.turn = Color.Black then 8 else -8
    match squareOffset sq offset with
    | some sq2 => .ok (1 <<< sq2)
    | none => .error (Error.SquareOffsetError sq offset)

/-- Modelled from the spec: the external `board.king_of(Black).is_none()`
test of the rules oracle — `true` iff Black has no king on the board. -/
def blackKingAbsent (board : List (Option Piece)) : Bool :=
  board.all (fun p => decide (p ≠ some ⟨Color.Black, Role.King⟩))

/-- `compress` of `src/position.rs`: occupancy (8 bytes big-endian), packed
piece nibbles in ascending square order, then the optional LEB128 halfmove
clock (present iff `halfmoves > 0 || ply > 1 || broken_turn`) and the
optional LEB128 ply count (present iff `ply > 1 || broken_turn`), where
`ply = (fullmoves - 1) * 2 + (1 if Black to move)` on u32. -/
def Setup.compress (p : Setup) : Except Error (List Nat) :=
  let occ := occupiedBB p.board
  match pawnPushedToBB p with
  | .error e => .error e
  | .ok pushed =>
    let nibbles := (occupiedList p.board).map
      (fun x => pieceValue x.2 x.1 (p.turn = Color.Black) p.castlingRights pushed)
    let base := beBytes 8 occ ++ packNibbles nibbles
    let ply := ((p.fullmoves - 1) * 2
      + if p.turn = Color.Black then 1 else 0) % 2 ^ 32
    let brokenTurn := p.turn = Color.Black ∧ blackKingAbsent p.board = true
    let withHm :=
      if 0 < p.halfmoves ∨ 1 < ply ∨ brokenTurn then base ++ lebWrite p.halfmoves
      else base
    .ok (if 1 < ply ∨ brokenTurn then withHm ++ lebWrite ply else withHm)

/-- `piece_from_value` of `src/position.rs`.  The `unreachable!()` arm (a
value above 15, impossible for a nibble) is modelled by a white pawn. -/
def pieceFromValue (value square : Nat) : Piece :=
  if value = 0 then ⟨Color.White, Role.Pawn⟩
  else if value = 1 then ⟨Color.Black, Role.Pawn⟩
  else if value = 2 then ⟨Color.White, Role.Knight⟩
  else if value = 3 then ⟨Color.Black, Role.Knight⟩
  else if value = 4 then ⟨Color.White, Role.Bishop⟩
  else if value = 5 then ⟨Color.Black, Role.Bishop⟩
  else if value = 6 ∨ value = 13 then ⟨Color.White, Role.Rook⟩
  else if value = 7 ∨ value = 14 then ⟨Color.Black, Role.Rook⟩
  else if value = 8 then ⟨Color.White, Role.Queen⟩
  else if value = 9 then ⟨Color.Black, Role.Queen⟩
  else if value = 10 then ⟨Color.White, Role.King⟩
  else if value = 11 ∨ value = 15 then ⟨Color.Black, Role.King⟩
  else if value = 12 then
    ⟨if square ≤ 31 then Color.White else Color.Black, Role.Pawn⟩
  else ⟨Color.White, Role.Pawn⟩

/-- The per-square decoding step of `decompress`: place the piece and apply
the side effects of the reserved codes (12 → ep square via `±8` offset with a
possible `SquareOffsetError`, 13/14 → castling right, 15 → Black to move).
`Bitboard::SOUTH` is squares 0..31. -/
def place (s : Setup) (square value : Nat) : Except Error Setup :=
  let piece := pieceFromValue value square
  let s1 : Setup := { s with board := s.board.set square (some piece) }
  if value = 12 then
    let offset : Int := if square ≤ 31 then -8 else 8
    match squareOffset square offset with
    | some e => .ok { s1 with epSquare := some e }
    | none => .error (Error.SquareOffsetError square offset)
  else if value = 13 ∨ value = 14 then
    .ok { s1 with castlingRights := s1.castlingRights ||| (1 <<< square) }
  else if value = 15 then .ok { s1 with turn := Color.Black }
  else .ok s1

/-- The nibble-reading loop of `decompress` over the occupied squares in
ascending order: a fresh byte is consumed on every other square (its low
nibble first); `carry` holds the byte whose high nibble is still unread.
Returns the populated setup and the unread byte tail. -/
def decompAux : List Nat → List Nat → Option Nat → Setup →
    Except Error (Setup × List Nat)
  | [], bytes, _, s => .ok (s, bytes)
  | sq :: rest, bytes, none, s =>
    match bytes with
    | [] => .error Error.MissingBytes
    | b :: bs =>
      match place s sq (b &&& 15) with
      | .ok s2 => decompAux rest bs (some b) s2
      | .error e => .error e
  | sq :: rest, bytes, some b, s =>
    match place s sq ((b &&& 240) >>> 4) with
    | .ok s2 => decompAux rest bytes none s2
    | .error e => .error e

/-- The set bits of a bitboard in ascending order (the iteration order of
`shakmaty::Bitboard`). -/
def bitsList (occ : Nat) : List Nat :=
  (List.range 64).filter (fun i => occ.testBit i)

/-- The clock phase of `decompress`: optionally read the LEB128 halfmove
clock (`as u32`), then optionally the LEB128 ply count (`as u32`); an odd ply
count forces Black to move and `fullmoves = (ply - (1 if Black)) / 2 + 1`.
Trailing bytes after the ply count are ignored. -/
def decompTail (s : Setup) (rest : List Nat) : Except Error Setup :=
  if rest.isEmpty then .ok s
  else
    match lebRead rest with
    | none => .error Error.Leb128
    | some (hm, rest2) =>
      let s2 := { s with halfmoves := hm % 2 ^ 32 }
      if rest2.isEmpty then .ok s2
      else
        match lebRead rest2 with
        | none => .error Error.Leb128
        | some (plyv, _) =>
          let plyCount := plyv % 2 ^ 32
          let s3 :=
            if plyCount % 2 = 1 then { s2 with turn := Color.Black } else s2
          let blackOffset := if s3.turn = Color.Black then 1 else 0
          .ok { s3 with fullmoves := (plyCount - blackOffset) / 2 + 1 }

/-- `decompress` of `src/position.rs`: read the occupancy (8 bytes
big-endian, `MissingBytes` when shorter), populate the occupied squares from
the nibble stream, then read the optional clock fields (`decompTail`). -/
def Setup.decompress (bytes : List Nat) : Except Error Setup :=
  if bytes.length < 8 then .error Error.MissingBytes
  else
    let occ := fromBe (bytes.take 8)
    match decompAux (bitsList occ) (bytes.drop 8) none Setup.empty with
    | .error e => .error e
    | .ok (s, rest) => decompTail s rest

/-! ## Helper lemmas: PSQT bounds, pawn attacks, move scores -/

theorem psqt_bounds : ∀ r : Fin 6, ∀ s : Fin 64,
    -50 ≤ psqtAt r.val s.val ∧ psqtAt r.val s.val ≤ 50 := by decide

theorem xor56_lt : ∀ x : Fin 64, x.val ^^^ 56 < 64 := by decide

theorem pawnAttacks_reverse_wb : ∀ (t s : Fin 64),
    ((pawnAttacks Color.White t.val).testBit s.val
        = (pawnAttacks Color.Black s.val).testBit t.val)
      ∧ ((pawnAttacks Color.Black t.val).testBit s.val
        = (pawnAttacks Color.White s.val).testBit t.val) := by decide

/-- Pawn-attack reversal: a pawn of color `c` on `t` attacks `s` iff a pawn
of the other color on `s` attacks `t`. -/
theorem pawnAttacks_reverse (c : Color) (t s : Fin 64) :
    (pawnAttacks c t.val).testBit s.val
      = (pawnAttacks c.other s.val).testBit t.val := by
  cases c
  · exact (pawnAttacks_reverse_wb t s).1
  · exact (pawnAttacks_reverse_wb t s).2

/-- Bound on `move_value`: with a genuine role and on-board squares, the PSQT
difference stays in [-100, 100]. -/
theorem moveValue_bound (turn : Color) (m : ChessMove)
    (hrole1 : 1 ≤ m.role) (hrole6 : m.role ≤ 6)
    (hto : m.toSq < 64) (hfrom : m.fromSq < 64) :
    -100 ≤ moveValue turn m ∧ moveValue turn m ≤ 100 := by
  have hr : m.role - 1 < 6 := by omega
  unfold moveValue
  by_cases hw : turn = Color.White
  · simp only [hw, if_true, if_pos]
    have h1 := psqt_bounds ⟨m.role - 1, hr⟩ ⟨m.toSq ^^^ 56, xor56_lt ⟨m.toSq, hto⟩⟩
    have h2 := psqt_bounds ⟨m.role - 1, hr⟩ ⟨m.fromSq ^^^ 56, xor56_lt ⟨m.fromSq, hfrom⟩⟩
    simp only at h1 h2
    constructor <;> linarith [h1.1, h1.2, h2.1, h2.2]
  · simp only [hw, if_false, if_neg]
    have h1 := psqt_bounds ⟨m.role - 1, hr⟩ ⟨m.toSq, hto⟩
    have h2 := psqt_bounds ⟨m.role - 1, hr⟩ ⟨m.fromSq, hfrom⟩
    simp only at h1 h2
    constructor <;> linarith [h1.1, h1.2, h2.1, h2.2]

/-- The unnegated composite score: non-negative, below 2^31, and
`move_score` is its negation. -/
theorem score_core (turn : Color) (tp : Nat) (m : ChessMove)
    (hrole1 : 1 ≤ m.role) (hrole6 : m.role ≤ 6)
    (hto : m.toSq < 64) (hfrom : m.fromSq < 64)
    (hpromo : match m.promotion with | some r => 2 ≤ r ∧ r ≤ 5 | none => True) :
    0 ≤ -moveScore turn tp m ∧ -moveScore turn tp m < 2 ^ 31 := by
  have hmv := moveValue_bound turn m hrole1 hrole6 hto hfrom
  unfold moveScore
  have hpromoBound :
      0 ≤ (match m.promotion with
            | some promoted => ((promoted : Int) - 1) * 2 ^ 26
            | none => (0 : Int)) ∧
      (match m.promotion with
        | some promoted => ((promoted : Int) - 1) * 2 ^ 26
        | none => (0 : Int)) ≤ 4 * 2 ^ 26 := by
    cases hp : m.promotion with
    | none => simp
    | some r =>
      rw [hp] at hpromo
      simp only
      have : (2 : Int) ≤ (r : Int) ∧ (r : Int) ≤ 5 := by exact_mod_cast hpromo
      constructor <;> nlinarith [this.1, this.2]
  have hcap : 0 ≤ (if m.capture then (2 : Int) ^ 25 else 0) ∧
      (if m.capture then (2 : Int) ^ 25 else 0) ≤ 2 ^ 25 := by
    by_cases hc : m.capture <;> simp [hc]
  have hdps : 0 ≤ (if defendingPawns turn tp m.toSq = 0 then (6 : Int)
        else 6 - (m.role : Int)) ∧
      (if defendingPawns turn tp m.toSq = 0 then (6 : Int)
        else 6 - (m.role : Int)) ≤ 6 := by
    have : (m.role : Int) ≤ 6 := by exact_mod_cast hrole6
    have h1 : (1 : Int) ≤ (m.role : Int) := by exact_mod_cast hrole1
    by_cases hd : defendingPawns turn tp m.toSq = 0 <;> simp [hd] <;> omega
  have htosq : (m.toSq : Int) ≤ 63 := by exact_mod_cast Nat.le_of_lt_succ hto
  have htosq0 : (0 : Int) ≤ (m.toSq : Int) := Int.ofNat_nonneg _
  have hfromsq : (m.fromSq : Int) ≤ 63 := by exact_mod_cast Nat.le_of_lt_succ hfrom
  have hfromsq0 : (0 : Int) ≤ (m.fromSq : Int) := Int.ofNat_nonneg _
  simp only [neg_neg]
  constructor
  · linarith [hpromoBound.1, hcap.1, hdps.1, hmv.1]
  · linarith [hpromoBound.2, hcap.2, hdps.2, hmv.2]

/-! ## Claim C4: the move-ordering key -/

/-- The sort key exactly as the specification displays it (§4.3): role index,
optional vertical flip for White, PSQT difference, promotion / capture /
defending-pawn / move-value / square fields packed by left shifts, negated as
a whole.  (Written from the spec's words, to be compared with `move_score`.) -/
def specMoveKey (turn : Color) (theirPawns : Nat) (m : ChessMove) : Int :=
  let roleIdx := m.role - 1
  let toIdx := if turn = Color.White then m.toSq ^^^ 56 else m.toSq
  let fromIdx := if turn = Color.White then m.fromSq ^^^ 56 else m.fromSq
  let moveValueSpec := psqtAt roleIdx toIdx - psqtAt roleIdx fromIdx
  let defendingPawnScore : Int :=
    if defendingPawns turn theirPawns m.toSq = 0 then 6 else 6 - (m.role : Int)
  let score :=
    (match m.promotion with
     | some promotionRole => ((promotionRole : Int) - 1) * 2 ^ 26
     | none => 0)
    + (if m.capture then 2 ^ 25 else 0)
    + defendingPawnScore * 2 ^ 22
    + (512 + moveValueSpec) * 2 ^ 12
    + (m.toSq : Int) * 2 ^ 6
    + (m.fromSq : Int) ;
  -score

/-- Claim C4: for every position and legal move, `move_score` computes exactly
the specification's packed sort key (promotion, capture, defending-pawn,
PSQT-difference, to- and from-square fields, with the White vertical flip),
and `sorted_moves` is a permutation of the legal moves that is sorted
ascending by that key. -/
theorem claim_C4_move_ordering_key (Pos : Type) (O : ChessOracle Pos) (p : Pos)
    (turn : Color) (tp : Nat) (m : ChessMove) :
    moveScore turn tp m = specMoveKey turn tp m
    ∧ (sortedMoves O p).Perm (O.legalMoves p)
    ∧ (sortedMoves O p).Pairwise
        (fun a b => moveScore (O.turn p) (O.theirPawns p) a
          ≤ moveScore (O.turn p) (O.theirPawns p) b) := by
  refine ⟨rfl, List.mergeSort_perm _ _, ?_⟩
  have h := @List.sorted_mergeSort ChessMove
    (fun a b => decide (moveScore (O.turn p) (O.theirPawns p) a
      ≤ moveScore (O.turn p) (O.theirPawns p) b))
    (fun a b c hab hbc => by
      simp only [decide_eq_true_eq] at hab hbc ⊢
      exact le_trans hab hbc)
    (fun a b => by
      simp only [Bool.or_eq_true, decide_eq_true_eq]
      exact le_total _ _)
    (O.legalMoves p)
  exact h.imp (fun hab => by simpa using hab)

/-! ## Claim C6: the defending-pawns mask (corrected) -/

/-- Claim C6 counterexample: the claim's primary formula
`pawn_attacks_from(opponent_color, to_sq) ∩ opponent_pawns` does NOT equal the
`defending_pawns` bitboard the code computes.  White to move, `to = e4`
(square 28), a single black pawn on d5 (square 35): the code's mask is
`{d5}` (the black pawn on d5 defends e4), while pawn attacks of the
opponent's color (Black) from e4 reach d3/f3, giving the empty mask. -/
theorem claim_C6_counterexample :
    defendingPawns Color.White (1 <<< 35) 28
      ≠ pawnAttacks Color.White.other 28 &&& (1 <<< 35) := by decide

/-- Claim C6 (amended): `defending_pawns` is computed from the pawn attacks
of the side to move's own color from the to-square — which is exactly the set
of squares from which an enemy pawn attacks the to-square — intersected with
the enemy pawns. -/
theorem claim_C6_defending_pawns (turn : Color) (tp toSq s : Nat)
    (hto : toSq < 64) (hs : s < 64) :
    (defendingPawns turn tp toSq).testBit s
      ↔ tp.testBit s ∧ (pawnAttacks turn.other s).testBit toSq := by
  unfold defendingPawns
  have hrev := pawnAttacks_reverse turn ⟨toSq, hto⟩ ⟨s, hs⟩
  simp only at hrev
  rw [Nat.testBit_land, Bool.and_eq_true, hrev, and_comm]

/-- Claim C6 witness: concrete instance of the amended statement (White to
move, to-square e4, black pawn on d5 defending e4). -/
theorem claim_C6_witness :
    ((28 : Nat) < 64 ∧ (35 : Nat) < 64)
    ∧ ((defendingPawns Color.White (1 <<< 35) 28).testBit 35
        ↔ (1 <<< 35 : Nat).testBit 35
          ∧ (pawnAttacks Color.White.other 35).testBit 28) :=
  ⟨by decide,
   claim_C6_defending_pawns Color.White (1 <<< 35) 28 35 (by decide) (by decide)⟩

/-! ## Claim C9: the score range -/

/-- Claim C9: for a genuine move (role 1..6, squares on the board, promotion
role 2..5 when present), the unnegated composite score of `move_score` is
non-negative, its `(512 + move_value) << 12` term is at least `412 << 12`,
the whole sum stays below `2^31` (no `i32` overflow), and its negation is
also representable. -/
theorem claim_C9_score_range (turn : Color) (tp : Nat) (m : ChessMove)
    (hrole1 : 1 ≤ m.role) (hrole6 : m.role ≤ 6)
    (hto : m.toSq < 64) (hfrom : m.fromSq < 64)
    (hpromo : match m.promotion with | some r => 2 ≤ r ∧ r ≤ 5 | none => True) :
    0 ≤ -moveScore turn tp m
    ∧ -moveScore turn tp m < 2 ^ 31
    ∧ 412 * 2 ^ 12 ≤ (512 + moveValue turn m) * 2 ^ 12
    ∧ -(2 ^ 31) < moveScore turn tp m ∧ moveScore turn tp m ≤ 0 := by
  have hc := score_core turn tp m hrole1 hrole6 hto hfrom hpromo
  have hmv := moveValue_bound turn m hrole1 hrole6 hto hfrom
  refine ⟨hc.1, hc.2, by linarith [hmv.1], by linarith [hc.2], by linarith [hc.1]⟩

/-- Claim C9 witness: a concrete promoting capture with White to move — a
pawn (role 1) from square 52 to 60, capturing and promoting to a queen
(role 5), with no defending pawns. -/
theorem claim_C9_witness :
    ((1 : Nat) ≤ 1 ∧ (1 : Nat) ≤ 6 ∧ (60 : Nat) < 64 ∧ (52 : Nat) < 64)
    ∧ (0 ≤ -moveScore Color.White 0 ⟨1, 52, 60, some 5, true⟩
      ∧ -moveScore Color.White 0 ⟨1, 52, 60, some 5, true⟩ < 2 ^ 31
      ∧ 412 * 2 ^ 12
        ≤ (512 + moveValue Color.White ⟨1, 52, 60, some 5, true⟩) * 2 ^ 12
      ∧ -(2 ^ 31) < moveScore Color.White 0 ⟨1, 52, 60, some 5, true⟩
      ∧ moveScore Color.White 0 ⟨1, 52, 60, some 5, true⟩ ≤ 0) :=
  ⟨by decide,
   claim_C9_score_range Color.White 0 ⟨1, 52, 60, some 5, true⟩
     (by decide) (by decide) (by decide) (by decide) (by decide)⟩

/-! ## Claims C7 and C10: `write_move` / `read_move` -/

/-- A one-position oracle with a single legal move: the smallest concrete
instance of the rules-oracle interface, used to evaluate the codec at
concrete inputs. -/
def singleOracle : ChessOracle Unit :=
  ⟨fun _ => [⟨1, 8, 16, none, false⟩], fun _ _ => some (),
   fun _ => Color.White, fun _ => 0⟩

/-- Claim C7: `write_move` fails with `MoveNotFound` exactly when the move is
absent from the sorted legal-move list; when the move first occurs at index
`i` it emits the Huffman code of symbol `i` (the emitted bits being the only
change to the writer). -/
theorem claim_C7_move_not_found (Pos : Type) (O : ChessOracle Pos)
    (m : ChessMove) (p : Pos)
    (hlen : (O.legalMoves p).length ≤ 256) :
    (writeMove O m p = .error Error.MoveNotFound ↔ m ∉ sortedMoves O p)
    ∧ ∀ i, ∀ hi : i < (sortedMoves O p).length,
        (sortedMoves O p).get ⟨i, hi⟩ = m →
        (∀ j, ∀ hj : j < i, (sortedMoves O p).get ⟨j, Nat.lt_trans hj hi⟩ ≠ m) →
        writeMove O m p = .ok (codeBits i) := by
  constructor
  · cases hfind : (sortedMoves O p).findIdx? (fun r => r == m) with
    | some idx =>
      simp only [writeMove, hfind, reduceCtorEq, false_iff, not_not]
      obtain ⟨h, hp, -⟩ := List.findIdx?_eq_some_iff_getElem.mp hfind
      have hm : (sortedMoves O p)[idx] = m := by simpa using hp
      exact hm ▸ List.getElem_mem h
    | none =>
      simp only [writeMove, hfind, true_iff]
      intro hmem
      have := List.findIdx?_eq_none_iff.mp hfind m hmem
      simp at this
  · intro i hi hget hfirst
    have hfind : (sortedMoves O p).findIdx? (fun r => r == m) = some i := by
      apply List.findIdx?_eq_some_iff_getElem.mpr
      refine ⟨hi, by simpa using hget, ?_⟩
      intro j hj
      simpa using hfirst j hj
    have hlt : i < 256 := by
      unfold sortedMoves at hi
      rw [List.length_mergeSort] at hi
      omega
    simp only [writeMove, hfind, Nat.mod_eq_of_lt hlt]

/-- Claim C7 witness: the single legal move of `singleOracle` is found at
index 0 and encoded; its error case is the stated iff. -/
theorem claim_C7_witness :
    ((singleOracle.legalMoves ()).length ≤ 256)
    ∧ (writeMove singleOracle ⟨1, 8, 16, none, false⟩ ()
          = .error Error.MoveNotFound
        ↔ (⟨1, 8, 16, none, false⟩ : ChessMove) ∉ sortedMoves singleOracle ()) :=
  ⟨by decide,
   (claim_C7_move_not_found Unit singleOracle ⟨1, 8, 16, none, false⟩ ()
     (by decide)).1⟩

/-- Claim C10: `read_move` returns a move only when the decoded Huffman
symbol indexes inside the sorted legal-move list; and there is a position
(one with a single legal move) and a bit stream (the byte `0b11010000`,
decoding to symbol 2) on which the index is out of bounds and the source's
`moves[idx as usize]` panics instead of returning one of the `Error`
variants. -/
theorem claim_C10_decoder_bounds :
    (∀ (Pos : Type) (O : ChessOracle Pos) (bits : List Bool) (p : Pos)
        (m : ChessMove) (rest : List Bool),
        readMove O bits p = .ok (m, rest) →
        ∃ idx, ∃ h : idx < (sortedMoves O p).length,
          decodeT ROOT bits = some (idx, rest)
            ∧ m = (sortedMoves O p).get ⟨idx, h⟩)
    ∧ readMove singleOracle (bytesToBits [0b11010000]) () = .panicked := by
  constructor
  · intro Pos O bits p m rest hok
    cases hdec : decodeT ROOT bits with
    | none =>
      simp only [readMove, hdec, reduceCtorEq] at hok
    | some ir =>
      obtain ⟨idx, r⟩ := ir
      simp only [readMove, hdec] at hok
      by_cases h : idx < (sortedMoves O p).length
      · rw [dif_pos h] at hok
        have h1 := ReadResult.ok.inj hok
        refine ⟨idx, h, ?_, ?_⟩
        · rw [← (Prod.mk.injEq _ _ _ _).mp h1 |>.2]
        · exact ((Prod.mk.injEq _ _ _ _).mp h1 |>.1).symm
      · rw [dif_neg h] at hok
        exact absurd hok (by simp)
  · have hs : sortedMoves singleOracle ()
        = [⟨1, 8, 16, none, false⟩] := by
      simp [sortedMoves, singleOracle]
    have hdec : decodeT ROOT (bytesToBits [0b11010000])
        = some (2, [false, false, false, false]) := by rfl
    simp [readMove, hdec, hs]

/-- Claim C10 witness: a successful read on the one-move oracle decodes
symbol 0, which is inside the move list. -/
theorem claim_C10_witness :
    ∃ idx, ∃ h : idx < (sortedMoves singleOracle ()).length,
      decodeT ROOT (codeBits 0) = some (idx, [])
        ∧ (⟨1, 8, 16, none, false⟩ : ChessMove)
            = (sortedMoves singleOracle ()).get ⟨idx, h⟩ :=
  claim_C10_decoder_bounds.1 Unit singleOracle (codeBits 0) ()
    ⟨1, 8, 16, none, false⟩ []
    (by
      have hs : sortedMoves singleOracle ()
          = [⟨1, 8, 16, none, false⟩] := by
        simp [sortedMoves, singleOracle]
      have hdec : decodeT ROOT (codeBits 0) = some (0, []) := by rfl
      simp [readMove, hdec, hs])

/-! ## Claim C8: the missing-pawn en-passant square (corrected) -/

/-- `squareOffset` with a non-negative offset stays on the board when the
target is below 64. -/
theorem squareOffset_add (sq k : Nat) (h : sq + k < 64) :
    squareOffset sq (k : Int) = some (sq + k) := by
  unfold squareOffset
  have h0 : (0 : Int) ≤ (sq : Int) + (k : Int) := by positivity
  have h1 : (sq : Int) + (k : Int) < 64 := by exact_mod_cast h
  simp only [if_pos (And.intro h0 h1), Option.some.injEq]
  omega

/-- `squareOffset` with offset `-k` stays on the board when `k ≤ sq < 64`. -/
theorem squareOffset_sub (sq k : Nat) (hk : k ≤ sq) (h : sq < 64) :
    squareOffset sq (-(k : Int)) = some (sq - k) := by
  unfold squareOffset
  have h0 : (0 : Int) ≤ (sq : Int) + -(k : Int) := by
    have : (k : Int) ≤ (sq : Int) := by exact_mod_cast hk
    omega
  have h1 : (sq : Int) + -(k : Int) < 64 := by
    have : (sq : Int) < 64 := by exact_mod_cast h
    omega
  simp only [if_pos (And.intro h0 h1), Option.some.injEq]
  omega

/-- A position with an en-passant square whose pushed-to square holds no
pawn: Black to move, ep target e3 (square 20), pushed-to square e4 (28)
empty, kings on e1 and e8. -/
def c8Position : Setup :=
  ⟨((List.replicate 64 (none : Option Piece)).set 4
      (some ⟨Color.White, Role.King⟩)).set 60 (some ⟨Color.Black, Role.King⟩),
   Color.Black, 0, some 20, 0, 1⟩

/-- Claim C8 counterexample: on `c8Position` (code-12 square e4 empty) the
encoder does NOT fail — it returns `Ok` — and the round trip silently drops
the en-passant square.  (The `Error` type of `src/lib.rs` has `IO`, `Chess`
and `MoveNotFound` variants only; no `MissingPiece` exists to be returned.) -/
theorem claim_C8_counterexample :
    Setup.compress c8Position = .ok [16, 0, 0, 0, 0, 0, 0, 16, 250]
    ∧ Setup.decompress [16, 0, 0, 0, 0, 0, 0, 16, 250]
        = .ok { c8Position with epSquare := none } :=
  ⟨rfl, rfl⟩

/-- Claim C8 (amended): when the pushed-to square of the en-passant target
is on the board but holds no pawn, the encoder nevertheless succeeds (the
en-passant information is silently dropped; there is no `MissingPiece`
variant in the unified error type for it to fail with). -/
theorem claim_C8_missing_pawn (p : Setup) (e : Nat)
    (hep : p.epSquare = some e) (he : e < 64)
    (hoff : if p.turn = Color.Black then e + 8 < 64 else 8 ≤ e)
    (hnopawn : (match boardGet p.board
        (if p.turn = Color.Black then e + 8 else e - 8) with
      | some pc => decide (pc.role ≠ Role.Pawn)
      | none => true) = true) :
    ∃ bs, Setup.compress p = .ok bs := by
  have hpb : ∃ pb, pawnPushedToBB p = .ok pb := by
    unfold pawnPushedToBB
    rw [hep]
    by_cases ht : p.turn = Color.Black
    · rw [if_pos ht] at hoff
      simp only [ht, if_pos, if_true]
      rw [show (8 : Int) = ((8 : Nat) : Int) from rfl, squareOffset_add e 8 hoff]
      exact ⟨_, rfl⟩
    · rw [if_neg ht] at hoff
      simp only [ht, if_false]
      rw [show (-8 : Int) = -((8 : Nat) : Int) from rfl,
        squareOffset_sub e 8 hoff he]
      exact ⟨_, rfl⟩
  obtain ⟨pb, hpb⟩ := hpb
  unfold Setup.compress
  rw [hpb]
  exact ⟨_, rfl⟩

/-- Claim C8 witness: the amended statement applied to the concrete
`c8Position`. -/
theorem claim_C8_witness :
    (c8Position.epSquare = some 20 ∧ (20 : Nat) < 64
      ∧ (if c8Position.turn = Color.Black then 20 + 8 < 64 else 8 ≤ 20)
      ∧ (match boardGet c8Position.board
            (if c8Position.turn = Color.Black then 20 + 8 else 20 - 8) with
          | some pc => decide (pc.role ≠ Role.Pawn)
          | none => true) = true)
    ∧ ∃ bs, Setup.compress c8Position = .ok bs :=
  ⟨⟨rfl, by decide, by decide, by decide⟩,
   claim_C8_missing_pawn c8Position 20 rfl (by decide) (by decide) (by decide)⟩

/-! ## Claim C5: presence of the LEB128 clock fields -/

/-- A sample position for the clock fields: empty board, halfmove clock 50
(spec scenario 6). -/
def c5Position : Setup := { Setup.empty with halfmoves := 50 }

theorem append_ifs {A : Type} (c1 c2 : Prop) [Decidable c1] [Decidable c2]
    (base x y : List A) :
    (if c2 then (if c1 then base ++ x else base) ++ y
      else (if c1 then base ++ x else base))
    = base ++ ((if c1 then x else []) ++ (if c2 then y else [])) := by
  split <;> split <;> simp

/-- Claim C5 counterexample: at `fullmoves = 2^31 + 1` (White to move,
halfmoves 0, no broken turn) the claim's ply, `(fullmoves - 1) * 2 +
(1 if Black to move)` read mathematically, is `2^32 > 1`, so the claim
demands both LEB128 fields; but the source computes ply on `u32`, the
multiplication wraps to `0`, and `compress` emits the 8-byte empty-board
occupancy with NO trailing LEB128 fields at all. -/
theorem claim_C5_counterexample :
    Setup.compress { Setup.empty with fullmoves := 2 ^ 31 + 1 }
      = .ok [0, 0, 0, 0, 0, 0, 0, 0]
    ∧ 1 < (({ Setup.empty with fullmoves := 2 ^ 31 + 1 } : Setup).fullmoves - 1)
          * 2
        + (if ({ Setup.empty with fullmoves := 2 ^ 31 + 1 } : Setup).turn
              = Color.Black then 1 else 0) :=
  ⟨rfl, by decide⟩

/-- Claim C5 (amended): the compressed position is exactly the board part
(occupancy bytes then packed piece nibbles) followed by the halfmove-clock
LEB128 field exactly when `halfmoves > 0 ∨ ply > 1 ∨ broken_turn`, followed
by the ply-count LEB128 field exactly when `ply > 1 ∨ broken_turn`, where
`ply = ((fullmoves - 1) * 2 + (1 if Black to move)) mod 2^32` is the
source's u32 ply (equal to the claim's mathematical ply whenever
`fullmoves ≤ 2^31`) and `broken_turn = Black to move ∧ Black has no king`. -/
theorem claim_C5_leb_fields (p : Setup) (pb : Nat)
    (hpb : pawnPushedToBB p = .ok pb) :
    Setup.compress p = .ok (
      beBytes 8 (occupiedBB p.board)
      ++ packNibbles ((occupiedList p.board).map
        (fun x => pieceValue x.2 x.1 (p.turn = Color.Black) p.castlingRights pb))
      ++ ((if 0 < p.halfmoves
            ∨ 1 < ((p.fullmoves - 1) * 2
                + (if p.turn = Color.Black then 1 else 0)) % 2 ^ 32
            ∨ (p.turn = Color.Black
                ∧ ∀ x ∈ p.board, x ≠ some ⟨Color.Black, Role.King⟩)
          then lebWrite p.halfmoves else [])
        ++ (if 1 < ((p.fullmoves - 1) * 2
                + (if p.turn = Color.Black then 1 else 0)) % 2 ^ 32
              ∨ (p.turn = Color.Black
                  ∧ ∀ x ∈ p.board, x ≠ some ⟨Color.Black, Role.King⟩)
          then lebWrite (((p.fullmoves - 1) * 2
              + (if p.turn = Color.Black then 1 else 0)) % 2 ^ 32)
          else []))) := by
  have hbk : (blackKingAbsent p.board = true)
      ↔ ∀ x ∈ p.board, x ≠ some ⟨Color.Black, Role.King⟩ := by
    simp [blackKingAbsent, List.all_eq_true]
  unfold Setup.compress
  rw [hpb]
  simp only [← hbk]
  exact congrArg Except.ok (append_ifs _ _ _ _ _)

/-- Claim C5 witness: on `c5Position` (halfmoves 50, White to move, fullmove
1) only the halfmove field is appended. -/
theorem claim_C5_witness :
    Setup.compress c5Position = .ok (
      beBytes 8 (occupiedBB c5Position.board)
      ++ packNibbles ((occupiedList c5Position.board).map
        (fun x => pieceValue x.2 x.1 (c5Position.turn = Color.Black)
          c5Position.castlingRights 0))
      ++ ((if 0 < c5Position.halfmoves
            ∨ 1 < ((c5Position.fullmoves - 1) * 2
                + (if c5Position.turn = Color.Black then 1 else 0)) % 2 ^ 32
            ∨ (c5Position.turn = Color.Black
                ∧ ∀ x ∈ c5Position.board,
                    x ≠ some ⟨Color.Black, Role.King⟩)
          then lebWrite c5Position.halfmoves else [])
        ++ (if 1 < ((c5Position.fullmoves - 1) * 2
                + (if c5Position.turn = Color.Black then 1 else 0)) % 2 ^ 32
              ∨ (c5Position.turn = Color.Black
                  ∧ ∀ x ∈ c5Position.board,
                      x ≠ some ⟨Color.Black, Role.King⟩)
          then lebWrite (((c5Position.fullmoves - 1) * 2
              + (if c5Position.turn = Color.Black then 1 else 0)) % 2 ^ 32)
          else []))) :=
  claim_C5_leb_fields c5Position 0 rfl

/-! ## The Huffman codebook facts

Three computational facts are established by evaluation: the Kraft sum of the
codebook is exactly `2^31` (completeness), the trie built with fuel 32 never
exhausts its fuel (the Rust recursion terminates), and descending the trie
along each symbol's own code bits ends exactly at that symbol's leaf. -/

theorem codes_kraft : (CODES.map (fun c => 2 ^ (31 - c.2))).sum = 2 ^ 31 := by
  decide

theorem root_noFuel : noFuelLeaf ROOT = true := by decide

theorem codes_follow :
    ∀ s : Fin 256, followPath ROOT (codeBits s.val) = some s.val := by decide

/-- Following a path to a leaf and then decoding: the decoder consumes
exactly the path and returns the leaf's symbol. -/
theorem followPath_decodeT :
    ∀ (xs : List Bool) (t : Node) (s : Nat) (rest : List Bool),
      followPath t xs = some s → decodeT t (xs ++ rest) = some (s, rest) := by
  intro xs
  induction xs with
  | nil =>
    intro t s rest h
    cases t with
    | Leaf n => simp only [followPath, Option.some.injEq] at h; simp [decodeT, h]
    | Interior z o => simp [followPath] at h
  | cons b bs ih =>
    intro t s rest h
    cases t with
    | Leaf n => simp [followPath] at h
    | Interior z o =>
      simp only [followPath] at h
      simpa [decodeT] using ih (if b then o else z) s rest h

/-- A strictly longer walk after reaching a leaf falls off the trie. -/
theorem followPath_append :
    ∀ (xs : List Bool) (t : Node) (s : Nat) (ys : List Bool),
      followPath t xs = some s → ys ≠ [] → followPath t (xs ++ ys) = none := by
  intro xs
  induction xs with
  | nil =>
    intro t s ys h hne
    cases t with
    | Leaf n =>
      cases ys with
      | nil => exact absurd rfl hne
      | cons y ys2 => simp [followPath]
    | Interior z o => simp [followPath] at h
  | cons b bs ih =>
    intro t s ys h hne
    cases t with
    | Leaf n => simp [followPath] at h
    | Interior z o =>
      simp only [followPath] at h ⊢
      exact ih (if b then o else z) s ys h hne

theorem codeBits_length (s : Nat) : (codeBits s).length = (codeOf s).2 := by
  simp [codeBits]

/-- If entry `i` is a (shift-)prefix of entry `j`, its code bits are the
prefix of `j`'s code bits. -/
theorem codeBits_take (i j : Nat)
    (hpre : isPrefixCode (codeOf i).1 (codeOf i).2 (codeOf j).1 (codeOf j).2) :
    codeBits i = (codeBits j).take (codeOf i).2 := by
  obtain ⟨hle, hshift⟩ := hpre
  apply List.ext_getElem
  · simp [codeBits]
    omega
  · intro k hk1 hk2
    simp only [codeBits, List.getElem_take, List.getElem_map, List.getElem_range]
    rw [← hshift, Nat.testBit_shiftRight]
    congr 1
    simp only [codeBits, List.length_map, List.length_range] at hk1
    omega

/-- Prefix-freeness of the codebook, derived from the per-symbol trie paths:
if one code were a prefix of another, following the longer code would walk
through (or end at) the shorter code's leaf. -/
theorem codes_prefix_free :
    ∀ i j : Fin 256, i ≠ j →
      ¬ isPrefixCode (codeOf i.val).1 (codeOf i.val).2
        (codeOf j.val).1 (codeOf j.val).2 := by
  intro i j hne hpre
  have hfi := codes_follow i
  have hfj := codes_follow j
  have htake := codeBits_take i.val j.val hpre
  by_cases heq : (codeOf i.val).2 = (codeOf j.val).2
  · rw [htake, heq, ← codeBits_length j.val, List.take_length] at hfi
    rw [hfi] at hfj
    exact hne (Fin.ext (Option.some.inj hfj))
  · have hlt : (codeOf i.val).2 < (codeOf j.val).2 :=
      lt_of_le_of_ne hpre.1 heq
    have hsplit : codeBits j.val
        = codeBits i.val ++ (codeBits j.val).drop (codeOf i.val).2 := by
      rw [htake, List.take_append_drop]
    have hdrop : (codeBits j.val).drop (codeOf i.val).2 ≠ [] := by
      have : ((codeBits j.val).drop (codeOf i.val).2).length
          = (codeOf j.val).2 - (codeOf i.val).2 := by
        simp [codeBits_length]
      intro hnil
      rw [hnil] at this
      simp at this
      omega
    have := followPath_append (codeBits i.val) ROOT i.val
      ((codeBits j.val).drop (codeOf i.val).2) hfi hdrop
    rw [← hsplit] at this
    rw [this] at hfj
    exact Option.noConfusion hfj

/-- With fuel `f + 1` and no fuel marker in the result, the trie has depth at
most `f`. -/
theorem noFuelLeaf_treeDepth :
    ∀ (f : Nat) (c b : Nat), noFuelLeaf (buildTree (f + 1) c b) = true →
      treeDepth (buildTree (f + 1) c b) ≤ f := by
  intro f
  induction f with
  | zero =>
    intro c b h
    unfold buildTree at h ⊢
    cases hfind : findSym c b with
    | some s => simp [hfind, treeDepth]
    | none =>
      rw [hfind] at h
      simp [noFuelLeaf, buildTree] at h
  | succ f ih =>
    intro c b h
    unfold buildTree at h ⊢
    cases hfind : findSym c b with
    | some s => simp [hfind, treeDepth]
    | none =>
      rw [hfind] at h
      simp only [noFuelLeaf, Bool.and_eq_true] at h
      simp only [treeDepth]
      have h1 := ih _ _ h.1
      have h2 := ih _ _ h.2
      omega

/-- A decoder on a bit list at least as long as the trie depth reaches a
leaf, consuming at most `treeDepth t` bits. -/
theorem decodeT_total :
    ∀ (t : Node) (bits : List Bool), treeDepth t ≤ bits.length →
      ∃ s rest, decodeT t bits = some (s, rest)
        ∧ bits.length ≤ rest.length + treeDepth t := by
  intro t
  induction t with
  | Leaf n => intro bits _; exact ⟨n, bits, by simp [decodeT], by simp [treeDepth]⟩
  | Interior z o ihz iho =>
    intro bits hlen
    cases bits with
    | nil => simp [treeDepth] at hlen
    | cons b bs =>
      simp only [treeDepth, List.length_cons] at hlen
      by_cases hb : b
      · obtain ⟨s, rest, h1, h2⟩ := iho bs (by omega)
        exact ⟨s, rest, by simp [decodeT, hb, h1], by simp [treeDepth]; omega⟩
      · obtain ⟨s, rest, h1, h2⟩ := ihz bs (by omega)
        exact ⟨s, rest, by simp [decodeT, hb, h1], by simp [treeDepth]; omega⟩

/-- Every symbol the decoder returns from a fuel-free trie differs from the
fuel marker. -/
theorem decodeT_noFuel :
    ∀ (t : Node) (bits : List Bool) (s : Nat) (rest : List Bool),
      decodeT t bits = some (s, rest) → noFuelLeaf t = true → s ≠ 256 := by
  intro t
  induction t with
  | Leaf n =>
    intro bits s rest h hn
    simp only [decodeT, Option.some.injEq, Prod.mk.injEq] at h
    simp only [noFuelLeaf, decide_eq_true_eq] at hn
    exact h.1 ▸ hn
  | Interior z o ihz iho =>
    intro bits s rest h hn
    simp only [noFuelLeaf, Bool.and_eq_true] at hn
    cases bits with
    | nil => simp [decodeT] at h
    | cons b bs =>
      simp only [decodeT] at h
      by_cases hb : b
      · exact iho bs s rest (by simpa [hb] using h) hn.2
      · exact ihz bs s rest (by simpa [hb] using h) hn.1

/-- Every leaf of `buildTree` carries a symbol at most 256 (a table index
below 256 or the fuel marker 256). -/
theorem buildTree_decode_le :
    ∀ (f c b : Nat) (bits : List Bool) (s : Nat) (rest : List Bool),
      decodeT (buildTree f c b) bits = some (s, rest) → s ≤ 256 := by
  intro f
  induction f with
  | zero =>
    intro c b bits s rest h
    simp only [buildTree, decodeT, Option.some.injEq, Prod.mk.injEq] at h
    omega
  | succ f ih =>
    intro c b bits s rest h
    unfold buildTree at h
    cases hfind : findSym c b with
    | some i =>
      rw [hfind] at h
      simp only [decodeT, Option.some.injEq, Prod.mk.injEq] at h
      have hmem := List.mem_of_find?_eq_some hfind
      have : i < 256 := List.mem_range.mp hmem
      omega
    | none =>
      rw [hfind] at h
      cases bits with
      | nil => simp [decodeT] at h
      | cons bb bs =>
        simp only [decodeT] at h
        by_cases hb : bb
        · exact ih _ _ bs s rest (by simpa [hb] using h)
        · exact ih _ _ bs s rest (by simpa [hb] using h)

/-! ## Claim C3: completeness of the code and decoder termination -/

/-- Claim C3: the 256-entry codebook is a complete prefix code (Kraft sum
exactly `2^31`, and no entry is a prefix of another), the recursive
`build_tree(0, 0)` construction terminates (fuel 32 is never exhausted:
every root path of length at most 31 ends at a table entry, and the trie has
depth at most 31), and on any bit sequence of length at least 31 the decoder
reaches a leaf — a genuine table symbol — after reading at most 31 bits. -/
theorem claim_C3_huffman_complete :
    ((CODES.map (fun c => 2 ^ (31 - c.2))).sum = 2 ^ 31)
    ∧ (∀ i j : Fin 256, i ≠ j →
        ¬ isPrefixCode (codeOf i.val).1 (codeOf i.val).2
          (codeOf j.val).1 (codeOf j.val).2)
    ∧ noFuelLeaf ROOT = true
    ∧ treeDepth ROOT ≤ 31
    ∧ (∀ bits : List Bool, 31 ≤ bits.length →
        ∃ s rest, decodeT ROOT bits = some (s, rest)
          ∧ bits.length ≤ rest.length + 31 ∧ s < 256) := by
  have hdepth : treeDepth ROOT ≤ 31 := noFuelLeaf_treeDepth 31 0 0 root_noFuel
  refine ⟨codes_kraft, codes_prefix_free, root_noFuel, hdepth, ?_⟩
  intro bits hlen
  obtain ⟨s, rest, h1, h2⟩ := decodeT_total ROOT bits (le_trans hdepth hlen)
  have hle : s ≤ 256 := buildTree_decode_le 32 0 0 bits s rest h1
  have hne : s ≠ 256 := decodeT_noFuel ROOT bits s rest h1 root_noFuel
  exact ⟨s, rest, h1, by omega, by omega⟩

/-- Claim C3 witness: the all-ones 31-bit input decodes to a genuine symbol
within 31 bit reads. -/
theorem claim_C3_witness :
    (31 ≤ (List.replicate 31 true).length)
    ∧ ∃ s rest, decodeT ROOT (List.replicate 31 true) = some (s, rest)
        ∧ (List.replicate 31 true).length ≤ rest.length + 31 ∧ s < 256 :=
  ⟨by decide,
   claim_C3_huffman_complete.2.2.2.2 (List.replicate 31 true) (by decide)⟩

/-! ## Bit-stream / byte-stream round trip (the `BitWriter` / `BitReader`
pair) -/

theorem bitsOfByte_byteVal8 : ∀ a b c d e f g h : Bool,
    bitsOfByte (byteVal [a, b, c, d, e, f, g, h]) = [a, b, c, d, e, f, g, h] := by
  decide

theorem bitsOfByte_byteVal : ∀ (l : List Bool), l.length = 8 →
    bitsOfByte (byteVal l) = l
  | [], h => by simp at h
  | [a], h => by simp at h
  | [a, b], h => by simp at h
  | [a, b, c], h => by simp at h
  | [a, b, c, d], h => by simp at h
  | [a, b, c, d, e], h => by simp at h
  | [a, b, c, d, e, f], h => by simp at h
  | [a, b, c, d, e, f, g], h => by simp at h
  | [a, b, c, d, e, f, g, h], _ => bitsOfByte_byteVal8 a b c d e f g h
  | a :: b :: c :: d :: e :: f :: g :: h :: i :: rest, hx => by
    simp at hx

/-- A partial byte reads back as its bits followed by the zero padding. -/
theorem bitsOfByte_byteOfBits (bs : List Bool) (hle : bs.length ≤ 8) :
    bitsOfByte (byteOfBits bs) = bs ++ List.replicate (8 - bs.length) false := by
  apply bitsOfByte_byteVal
  simp only [List.length_append, List.length_replicate]
  omega

/-- Reading back the packed bytes yields the original bit stream followed by
the `pad_to_byte` zero bits. -/
theorem bytesToBits_bitsToBytes :
    ∀ (n : Nat) (bs : List Bool), bs.length ≤ n →
      bytesToBits (bitsToBytes bs)
        = bs ++ List.replicate ((8 - bs.length % 8) % 8) false := by
  intro n
  induction n with
  | zero =>
    intro bs hlen
    rw [List.length_eq_zero.mp (Nat.le_zero.mp hlen)]
    simp [bitsToBytes, bytesToBits]
  | succ n ih =>
    intro bs hlen
    cases bs with
    | nil => simp [bitsToBytes, bytesToBits]
    | cons b rest =>
      rw [bitsToBytes]
      simp only [bytesToBits, List.flatMap_cons]
      have hdropLen : ((b :: rest).drop 8).length ≤ n := by
        simp only [List.length_drop, List.length_cons]
        simp only [List.length_cons] at hlen
        omega
      have hih := ih ((b :: rest).drop 8) hdropLen
      simp only [bytesToBits] at hih
      rw [hih]
      by_cases hc : (b :: rest).length ≤ 8
      · rw [List.take_of_length_le hc, List.drop_eq_nil_of_le hc,
          bitsOfByte_byteOfBits _ hc]
        have h1 : (1 : Nat) ≤ (b :: rest).length := by simp
        have hcount : (8 - (b :: rest).length % 8) % 8
            = 8 - (b :: rest).length := by omega
        rw [hcount]
        simp
      · have hc8 : ((b :: rest).take 8).length = 8 := by
          simp only [List.length_take]
          omega
        rw [bitsOfByte_byteOfBits _ (le_of_eq hc8), hc8]
        simp only [Nat.sub_self, List.replicate_zero, List.append_nil]
        rw [← List.append_assoc, List.take_append_drop]
        have hmod : ((b :: rest).drop 8).length % 8 = (b :: rest).length % 8 := by
          simp only [List.length_drop]
          omega
        rw [hmod]

/-! ## Claim C1: the move-stream round trip -/

/-- Decoding a symbol's own code followed by anything returns the symbol and
consumes exactly the code. -/
theorem decode_code (s : Nat) (hs : s < 256) (rest : List Bool) :
    decodeT ROOT (codeBits s ++ rest) = some (s, rest) :=
  followPath_decodeT (codeBits s) ROOT s rest (codes_follow ⟨s, hs⟩)

/-- A member of a list is found by `findIdx?` at an index where the list
holds it. -/
theorem findIdx_of_mem (l : List ChessMove) (m : ChessMove) (hm : m ∈ l) :
    ∃ idx, ∃ h : idx < l.length,
      l.findIdx? (fun r => r == m) = some idx ∧ l.get ⟨idx, h⟩ = m := by
  have hfind := List.findIdx?_eq_some_of_exists
    (p := fun r => r == m) ⟨m, hm, by simp⟩
  obtain ⟨h, hp, -⟩ := List.findIdx?_eq_some_iff_getElem.mp hfind
  exact ⟨_, h, hfind, by simpa using hp⟩

/-- The bit-level round trip: a legal move sequence compresses successfully,
and decompressing its bit stream (with any trailing bits) returns exactly the
sequence. -/
theorem roundtrip_bits (Pos : Type) (O : ChessOracle Pos) :
    ∀ (ms : List ChessMove) (p : Pos), LegalSeq O p ms →
      ∃ bits, compressBits O ms p = .ok bits
        ∧ ∀ extra, decompressBits O ms.length (bits ++ extra) p = .ok ms := by
  intro ms p hleg
  induction hleg with
  | nil p0 => exact ⟨[], rfl, fun extra => by simp [decompressBits]⟩
  | @cons p p2 m ms hmem hlen hplay htail ih =>
    obtain ⟨bits, hc, hd⟩ := ih
    have hslen : (sortedMoves O p).length = (O.legalMoves p).length := by
      unfold sortedMoves
      rw [List.length_mergeSort]
    have hmemSorted : m ∈ sortedMoves O p := by
      unfold sortedMoves
      exact List.mem_mergeSort.mpr hmem
    obtain ⟨idx, hidx, hfind, hget⟩ := findIdx_of_mem _ m hmemSorted
    have hidx256 : idx < 256 := by omega
    have hw : writeMove O m p = .ok (codeBits idx) := by
      simp only [writeMove, hfind, Nat.mod_eq_of_lt hidx256]
    refine ⟨codeBits idx ++ bits, ?_, ?_⟩
    · simp only [compressBits, hw, hplay, hc]
    · intro extra
      have hdec : decodeT ROOT (codeBits idx ++ bits ++ extra)
          = some (idx, bits ++ extra) := by
        rw [List.append_assoc]
        exact decode_code idx hidx256 (bits ++ extra)
      have hr : readMove O (codeBits idx ++ bits ++ extra) p
          = .ok (m, bits ++ extra) := by
        simp only [readMove, hdec, dif_pos hidx]
        rw [show (sortedMoves O p).get ⟨idx, hidx⟩ = m from hget]
      simp only [List.length_cons, decompressBits, hr, hplay, hd extra]

/-- Claim C1: for every position `P0` and every move sequence legal along
its own replay from `P0` (with the standard-chess bound of at most 256 legal
moves per position), compressing from `P0` succeeds and decompressing the
resulting bytes for the same number of plies from `P0` returns exactly the
original sequence. -/
theorem claim_C1_move_roundtrip (Pos : Type) (O : ChessOracle Pos)
    (ms : List ChessMove) (p : Pos) (hleg : LegalSeq O p ms) :
    ∃ out, compressFromPosition O ms p = .ok out
      ∧ decompressFromPosition O out ms.length p = .ok ms := by
  obtain ⟨bits, hc, hd⟩ := roundtrip_bits Pos O ms p hleg
  refine ⟨bitsToBytes bits, ?_, ?_⟩
  · simp only [compressFromPosition, hc, Except.map]
  · unfold decompressFromPosition
    rw [bytesToBits_bitsToBytes bits.length bits (le_refl _)]
    exact hd _

/-- Claim C1 witness: the single legal move of `singleOracle` round-trips. -/
theorem claim_C1_witness :
    LegalSeq singleOracle () [⟨1, 8, 16, none, false⟩]
    ∧ ∃ out,
      compressFromPosition singleOracle [⟨1, 8, 16, none, false⟩] () = .ok out
      ∧ decompressFromPosition singleOracle out
          [(⟨1, 8, 16, none, false⟩ : ChessMove)].length ()
        = .ok [⟨1, 8, 16, none, false⟩] := by
  have hleg : LegalSeq singleOracle () [⟨1, 8, 16, none, false⟩] :=
    LegalSeq.cons (by simp [singleOracle]) (by decide) rfl (LegalSeq.nil ())
  exact ⟨hleg, claim_C1_move_roundtrip Unit singleOracle _ () hleg⟩

/-! ## Claim C2: position round trip — infrastructure

`placeFold` replays the per-square placement steps of `decompress` as a pure
fold (separated from the nibble reading, whose interleaving does not affect
either part); `placeOk` is the success value of one `place` step. -/

/-- The en-passant square recovered from a code-12 square: `-8` in the south
half, `+8` in the north half. -/
def epOf (sq : Nat) : Nat :=
  if sq ≤ 31 then sq - 8 else sq + 8

/-- The success value of one `place` step. -/
def placeOk (s : Setup) (square value : Nat) : Setup :=
  let piece := pieceFromValue value square
  let s1 : Setup := { s with board := s.board.set square (some piece) }
  if value = 12 then { s1 with epSquare := some (epOf square) }
  else if value = 13 ∨ value = 14 then
    { s1 with castlingRights := s1.castlingRights ||| (1 <<< square) }
  else if value = 15 then { s1 with turn := Color.Black }
  else s1

/-- The placement loop as a fold over (square, value) pairs. -/
def placeFold (s : Setup) : List (Nat × Nat) → Except Error Setup
  | [] => .ok s
  | (sq, v) :: rest =>
    match place s sq v with
    | .ok s2 => placeFold s2 rest
    | .error e => .error e

theorem pieceValue_lt (piece : Piece) (sq : Nat) (bt : Bool)
    (r pp : Nat) : pieceValue piece sq bt r pp < 16 := by
  obtain ⟨c, role⟩ := piece
  cases c <;> cases role <;>
    simp only [pieceValue] <;> split <;> first | omega | (split <;> omega)

theorem nibble_fin : ∀ a b : Fin 16,
    ((b.val <<< 4 ||| a.val) &&& 15 = a.val)
      ∧ (((b.val <<< 4 ||| a.val) &&& 240) >>> 4 = b.val)
      ∧ (b.val <<< 4 ||| a.val) < 256 := by decide

theorem lebWrite_ne_nil (x : Nat) : lebWrite x ≠ [] := by
  unfold lebWrite
  split <;> simp

theorem lebRead_lebWrite : ∀ (x : Nat) (rest : List Nat),
    lebRead (lebWrite x ++ rest) = some (x, rest) := by
  intro x
  induction x using Nat.strong_induction_on with
  | _ x ih =>
    intro rest
    unfold lebWrite
    by_cases h : x < 128
    · simp [lebRead, h]
    · have h2 : ¬(x % 128 + 128 < 128) := by omega
      simp only [if_neg h, List.cons_append, lebRead, if_neg h2,
        ih (x / 128) (Nat.div_lt_self (by omega) (by omega)) rest]
      have : x / 128 * 128 + (x % 128 + 128 - 128) = x := by omega
      rw [this]

theorem beBytes_length : ∀ k n, (beBytes k n).length = k := by
  intro k
  induction k with
  | zero => intro n; rfl
  | succ k ih => intro n; simp [beBytes, ih]

theorem fromBe_beBytes : ∀ k n, n < 256 ^ k → fromBe (beBytes k n) = n := by
  intro k
  induction k with
  | zero =>
    intro n h
    simp only [Nat.pow_zero, Nat.lt_one_iff] at h
    simp [h, beBytes, fromBe]
  | succ k ih =>
    intro n h
    have hdiv : n / 256 < 256 ^ k := by
      rw [Nat.div_lt_iff_lt_mul (by omega)]
      calc n < 256 ^ (k + 1) := h
        _ = 256 ^ k * 256 := by ring
    simp only [beBytes, fromBe, List.foldl_append]
    rw [show (beBytes k (n / 256)).foldl (fun acc b => acc * 256 + b) 0
        = fromBe (beBytes k (n / 256)) from rfl, ih (n / 256) hdiv]
    simp only [List.foldl_cons, List.foldl_nil]
    omega

theorem place_eq_ok (s : Setup) (sq v : Nat)
    (hoff : v = 12 → (sq ≤ 31 → 8 ≤ sq) ∧ (31 < sq → sq + 8 < 64))
    (hsq : sq < 64) :
    place s sq v = .ok (placeOk s sq v) := by
  by_cases h12 : v = 12
  · have hc := hoff h12
    by_cases hs : sq ≤ 31
    · simp only [place, placeOk, h12, if_true, if_pos, hs,
        show (-8 : Int) = -((8 : Nat) : Int) from rfl,
        squareOffset_sub sq 8 (hc.1 hs) hsq, epOf]
    · simp only [place, placeOk, h12, if_true, if_pos, hs, if_false,
        show (8 : Int) = ((8 : Nat) : Int) from rfl,
        squareOffset_add sq 8 (hc.2 (by omega)), epOf]
  · by_cases h34 : v = 13 ∨ v = 14
    · simp [place, placeOk, h12, h34]
    · by_cases h15 : v = 15 <;> simp [place, placeOk, h12, h34, h15]

theorem placeOk_board (s : Setup) (sq v : Nat) :
    (placeOk s sq v).board = s.board.set sq (some (pieceFromValue v sq)) := by
  unfold placeOk
  split
  · rfl
  · split
    · rfl
    · split <;> rfl

theorem placeOk_turn (s : Setup) (sq v : Nat) :
    (placeOk s sq v).turn = if v = 15 then Color.Black else s.turn := by
  unfold placeOk
  by_cases h12 : v = 12
  · simp [h12]
  · by_cases h34 : v = 13 ∨ v = 14
    · have : v ≠ 15 := by omega
      simp [h12, h34, this]
    · by_cases h15 : v = 15 <;> simp [h12, h34, h15]

theorem placeOk_rights (s : Setup) (sq v : Nat) :
    (placeOk s sq v).castlingRights
      = if v = 13 ∨ v = 14 then s.castlingRights ||| (1 <<< sq)
        else s.castlingRights := by
  unfold placeOk
  by_cases h12 : v = 12
  · have : ¬(v = 13 ∨ v = 14) := by omega
    simp [h12, this]
  · by_cases h34 : v = 13 ∨ v = 14
    · simp [h12, h34]
    · by_cases h15 : v = 15 <;> simp [h12, h34, h15]

theorem placeOk_ep (s : Setup) (sq v : Nat) :
    (placeOk s sq v).epSquare
      = if v = 12 then some (epOf sq) else s.epSquare := by
  unfold placeOk
  by_cases h12 : v = 12
  · simp [h12]
  · by_cases h34 : v = 13 ∨ v = 14
    · simp [h12, h34]
    · by_cases h15 : v = 15 <;> simp [h12, h34, h15]

theorem placeOk_clocks (s : Setup) (sq v : Nat) :
    (placeOk s sq v).halfmoves = s.halfmoves
      ∧ (placeOk s sq v).fullmoves = s.fullmoves := by
  unfold placeOk
  constructor <;>
    (split
     · rfl
     · split
       · rfl
       · split <;> rfl)

/-- The pure placement fold, field by field: the board is the fold of the
`set` operations, the turn flips to Black iff some value 15 occurs, the
castling rights accumulate the 13/14 squares, the en-passant square is set by
the last value 12, and the clocks are untouched. -/
theorem stateFold_eq : ∀ (L : List (Nat × Nat)) (s : Setup),
    L.foldl (fun s2 x => placeOk s2 x.1 x.2) s =
      ⟨L.foldl (fun b x => b.set x.1 (some (pieceFromValue x.2 x.1))) s.board,
       if L.any (fun x => decide (x.2 = 15)) then Color.Black else s.turn,
       L.foldl (fun r x => if x.2 = 13 ∨ x.2 = 14 then r ||| (1 <<< x.1) else r)
         s.castlingRights,
       L.foldl (fun e x => if x.2 = 12 then some (epOf x.1) else e) s.epSquare,
       s.halfmoves, s.fullmoves⟩ := by
  intro L
  induction L with
  | nil => intro s; rfl
  | cons x L ih =>
    intro s
    simp only [List.foldl_cons, List.any_cons]
    rw [ih (placeOk s x.1 x.2)]
    rw [placeOk_board, placeOk_turn, placeOk_rights, placeOk_ep,
      (placeOk_clocks s x.1 x.2).1, (placeOk_clocks s x.1 x.2).2]
    congr 1
    by_cases hx : x.2 = 15
    · simp [hx]
    · have hd : decide (x.2 = 15) = false := by simp [hx]
      simp only [hd, Bool.false_or, if_neg hx]

/-- When every step of the placement loop can succeed (valid squares, and a
workable offset at each value-12 square), `placeFold` is the pure fold. -/
theorem placeFold_ok : ∀ (L : List (Nat × Nat)) (s : Setup),
    (∀ x ∈ L, x.1 < 64
      ∧ (x.2 = 12 → (x.1 ≤ 31 → 8 ≤ x.1) ∧ (31 < x.1 → x.1 + 8 < 64))) →
    placeFold s L = .ok (L.foldl (fun s2 x => placeOk s2 x.1 x.2) s) := by
  intro L
  induction L with
  | nil => intro s _; rfl
  | cons x L ih =>
    intro s hyp
    obtain ⟨hx, hL⟩ := List.forall_mem_cons.mp hyp
    obtain ⟨sq, v⟩ := x
    simp only [placeFold, place_eq_ok s sq v hx.2 hx.1, List.foldl_cons]
    exact ih (placeOk s sq v) hL

/-- The nibble-reading loop on a packed nibble stream is the placement fold:
each byte feeds two squares (low nibble first), and the byte tail after the
occupied squares is returned untouched. -/
theorem decompAux_pack :
    ∀ (squares nibbles tail : List Nat) (s : Setup),
      squares.length = nibbles.length → (∀ v ∈ nibbles, v < 16) →
      decompAux squares (packNibbles nibbles ++ tail) none s
        = (placeFold s (squares.zip nibbles)).map (fun s2 => (s2, tail))
  | [], [], tail, s, _, _ => by
    simp [decompAux, packNibbles, placeFold, Except.map]
  | [], v :: _, tail, s, hlen, _ => by simp at hlen
  | sq :: _, [], tail, s, hlen, _ => by simp at hlen
  | [sq], [a], tail, s, _, hv => by
    have ha : a < 16 := hv a (by simp)
    have h1 := nibble_fin ⟨a, ha⟩ ⟨0, by omega⟩
    simp only at h1
    simp only [packNibbles, List.cons_append, List.nil_append, decompAux]
    rw [show ((0 <<< 4) ||| a) &&& 15 = a from h1.1]
    cases hp : place s sq a with
    | ok s2 => simp [hp, decompAux, placeFold, Except.map]
    | error e => simp [hp, placeFold, Except.map]
  | sq1 :: sq2 :: sqs, a :: b :: nibs, tail, s, hlen, hv => by
    have ha : a < 16 := hv a (by simp)
    have hb : b < 16 := hv b (by simp)
    have h1 := nibble_fin ⟨a, ha⟩ ⟨b, hb⟩
    simp only at h1
    simp only [packNibbles, List.cons_append, decompAux]
    rw [show ((b <<< 4) ||| a) &&& 15 = a from h1.1]
    cases hp : place s sq1 a with
    | error e => simp [hp, placeFold, Except.map]
    | ok s2 =>
      simp only [hp]
      rw [show (((b <<< 4) ||| a) &&& 240) >>> 4 = b from h1.2.1]
      cases hp2 : place s2 sq2 b with
      | error e => simp [hp, hp2, placeFold, Except.map]
      | ok s3 =>
        simp only [hp2]
        have hrec := decompAux_pack sqs nibs tail s3
          (by simpa using hlen) (fun v hvm => hv v (by simp [hvm]))
        simpa [placeFold, hp, hp2] using hrec
  | [sq], a :: b :: _, tail, s, hlen, _ => by simp at hlen
  | sq1 :: sq2 :: _, [a], tail, s, hlen, _ => by simp at hlen

theorem mem_occupiedList (b : List (Option Piece)) (j : Nat) (p : Piece) :
    (j, p) ∈ occupiedList b ↔ j < 64 ∧ boardGet b j = some p := by
  unfold occupiedList
  rw [List.mem_filterMap]
  constructor
  · rintro ⟨i, hi, hf⟩
    rw [Option.map_eq_some'] at hf
    obtain ⟨q, hq, heq⟩ := hf
    obtain ⟨h1, h2⟩ := Prod.mk.injEq .. |>.mp heq
    exact ⟨h1 ▸ List.mem_range.mp hi, by rw [← h1, hq, h2]⟩
  · rintro ⟨hj, hb⟩
    exact ⟨j, List.mem_range.mpr hj, by rw [hb]; rfl⟩

theorem map_fst_occupiedList (b : List (Option Piece)) :
    (occupiedList b).map Prod.fst
      = (List.range 64).filter (fun i => (boardGet b i).isSome) := by
  unfold occupiedList
  induction List.range 64 with
  | nil => rfl
  | cons i l ih =>
    simp only [List.filterMap_cons, List.filter_cons]
    cases hb : boardGet b i with
    | none => simpa [hb] using ih
    | some p => simpa [hb] using ih

theorem occupiedList_sq_lt (b : List (Option Piece)) :
    ∀ x ∈ occupiedList b, x.1 < 64 := by
  intro x hx
  obtain ⟨j, p⟩ := x
  exact ((mem_occupiedList b j p).mp hx).1

theorem testBit_foldl_or :
    ∀ (L : List (Nat × Piece)) (acc j : Nat),
      (L.foldl (fun a x => a ||| (1 <<< x.1)) acc).testBit j
        = (acc.testBit j || L.any (fun x => decide (x.1 = j))) := by
  intro L
  induction L with
  | nil => intro acc j; simp
  | cons x L ih =>
    intro acc j
    simp only [List.foldl_cons, List.any_cons]
    rw [ih]
    simp only [Nat.testBit_lor, Nat.one_shiftLeft, Nat.testBit_two_pow]
    rw [Bool.or_assoc]

theorem testBit_occupiedBB (b : List (Option Piece)) (j : Nat) :
    (occupiedBB b).testBit j
      = (occupiedList b).any (fun x => decide (x.1 = j)) := by
  unfold occupiedBB
  rw [testBit_foldl_or]
  simp

theorem occupiedBB_lt (b : List (Option Piece)) : occupiedBB b < 2 ^ 64 := by
  apply Nat.lt_pow_two_of_testBit
  intro i hi
  rw [testBit_occupiedBB]
  rw [List.any_eq_false]
  intro x hx
  have := occupiedList_sq_lt b x hx
  simp only [decide_eq_true_eq]
  omega

theorem bitsList_occupiedBB (b : List (Option Piece)) :
    bitsList (occupiedBB b) = (occupiedList b).map Prod.fst := by
  unfold bitsList
  rw [map_fst_occupiedList]
  apply List.filter_congr
  intro i hi
  rw [testBit_occupiedBB]
  cases hb : boardGet b i with
  | some p =>
    simp only [Option.isSome_some, List.any_eq_true]
    exact ⟨(i, p), (mem_occupiedList b i p).mpr
      ⟨List.mem_range.mp hi, hb⟩, by simp⟩
  | none =>
    simp only [Option.isSome_none]
    rw [List.any_eq_false]
    intro x hx
    obtain ⟨j, p⟩ := x
    have hm := (mem_occupiedList b j p).mp hx
    simp only [decide_eq_true_eq]
    intro hji
    rw [hji] at hm
    rw [hm.2] at hb
    exact Option.noConfusion hb

theorem nodup_occupiedList_fst (b : List (Option Piece)) :
    ((occupiedList b).map Prod.fst).Nodup := by
  rw [map_fst_occupiedList]
  exact (List.nodup_range 64).filter _

/-! ### Reconstructing each `Setup` field from the placement fold -/

theorem boardFold_length :
    ∀ (L : List (Nat × Nat)) (init : List (Option Piece)),
      (L.foldl (fun bb x => bb.set x.1 (some (pieceFromValue x.2 x.1)))
        init).length = init.length := by
  intro L
  induction L with
  | nil => intro init; rfl
  | cons x L ih => intro init; simp [ih]

theorem boardFold_notMem :
    ∀ (L : List (Nat × Nat)) (init : List (Option Piece)) (j : Nat),
      (∀ x ∈ L, x.1 ≠ j) →
      (L.foldl (fun bb x => bb.set x.1 (some (pieceFromValue x.2 x.1)))
        init)[j]? = init[j]? := by
  intro L
  induction L with
  | nil => intro init j _; rfl
  | cons x L ih =>
    intro init j hne
    simp only [List.foldl_cons]
    rw [ih _ j (fun y hy => hne y (List.mem_cons_of_mem x hy))]
    exact List.getElem?_set_ne (hne x (List.mem_cons_self x L))

theorem boardFold_mem :
    ∀ (L1 L2 : List (Nat × Nat)) (sq v : Nat) (init : List (Option Piece)),
      sq < init.length → (∀ x ∈ L2, x.1 ≠ sq) →
      ((L1 ++ (sq, v) :: L2).foldl
        (fun bb x => bb.set x.1 (some (pieceFromValue x.2 x.1)))
        init)[sq]? = some (some (pieceFromValue v sq)) := by
  intro L1 L2 sq v init hsq hne
  rw [List.foldl_append]
  simp only [List.foldl_cons]
  rw [boardFold_notMem L2 _ sq hne]
  have hlen : sq < ((L1.foldl
      (fun bb x => bb.set x.1 (some (pieceFromValue x.2 x.1))) init)).length := by
    rw [boardFold_length]
    exact hsq
  exact List.getElem?_set_self (by simpa using hlen)

theorem rightsFold_testBit :
    ∀ (L : List (Nat × Nat)) (r j : Nat),
      ((L.foldl (fun r2 x => if x.2 = 13 ∨ x.2 = 14 then r2 ||| (1 <<< x.1)
          else r2) r).testBit j)
        = (r.testBit j
            || L.any (fun x => decide ((x.2 = 13 ∨ x.2 = 14) ∧ x.1 = j))) := by
  intro L
  induction L with
  | nil => intro r j; simp
  | cons x L ih =>
    intro r j
    simp only [List.foldl_cons, List.any_cons]
    by_cases hx : x.2 = 13 ∨ x.2 = 14
    · rw [if_pos hx, ih]
      simp only [Nat.testBit_lor, Nat.one_shiftLeft, Nat.testBit_two_pow, hx]
      by_cases hj : x.1 = j <;> simp [hj, Bool.or_assoc, Bool.or_comm]
    · rw [if_neg hx, ih]
      simp [hx]

theorem epFold_no12 :
    ∀ (L : List (Nat × Nat)) (e : Option Nat), (∀ x ∈ L, x.2 ≠ 12) →
      L.foldl (fun e2 x => if x.2 = 12 then some (epOf x.1) else e2) e = e := by
  intro L
  induction L with
  | nil => intro e _; rfl
  | cons x L ih =>
    intro e hn
    simp only [List.foldl_cons, if_neg (hn x (List.mem_cons_self x L))]
    exact ih e (fun y hy => hn y (List.mem_cons_of_mem x hy))

theorem epFold_12 :
    ∀ (L1 L2 : List (Nat × Nat)) (sq : Nat) (e : Option Nat),
      (∀ x ∈ L2, x.2 ≠ 12) →
      (L1 ++ (sq, 12) :: L2).foldl
        (fun e2 x => if x.2 = 12 then some (epOf x.1) else e2) e
        = some (epOf sq) := by
  intro L1 L2 sq e hn
  rw [List.foldl_append]
  simp only [List.foldl_cons, if_pos rfl]
  exact epFold_no12 L2 _ hn

theorem pieceValue_eq_12 (p : Piece) (sq : Nat) (bt : Bool) (r pp : Nat)
    (h : pieceValue p sq bt r pp = 12) :
    pp.testBit sq = true ∧ p.role = Role.Pawn := by
  obtain ⟨c, role⟩ := p
  by_cases hb : pp.testBit sq = true
  · refine ⟨hb, ?_⟩
    by_contra hrole
    simp only [pieceValue] at h
    rw [if_neg (by simp only [not_and]; intro hr; exact absurd hr hrole)] at h
    cases c <;> cases role <;> dsimp only at h <;>
      first
      | omega
      | (split at h <;> omega)
      | exact absurd rfl hrole
  · exfalso
    simp only [pieceValue] at h
    rw [if_neg (by simp [hb])] at h
    cases c <;> cases role <;> dsimp only at h <;>
      first
      | omega
      | (split at h <;> omega)

/-- `piece_value` as a function of the finitely many observables it reads:
the piece, the pushed-to bit and castling-rights bit of the square, and the
side to move.  (A reformulation of `pieceValue` for finite case analysis.) -/
def pieceCode (c : Color) (role : Role) (pb rb bt : Bool) : Nat :=
  if role = Role.Pawn ∧ pb = true then 12
  else
    match c, role with
    | Color.White, Role.Pawn => 0
    | Color.Black, Role.Pawn => 1
    | Color.White, Role.Knight => 2
    | Color.Black, Role.Knight => 3
    | Color.White, Role.Bishop => 4
    | Color.Black, Role.Bishop => 5
    | Color.White, Role.Rook => if rb then 13 else 6
    | Color.Black, Role.Rook => if rb then 14 else 7
    | Color.White, Role.Queen => 8
    | Color.Black, Role.Queen => 9
    | Color.White, Role.King => 10
    | Color.Black, Role.King => if bt then 15 else 11

/-- `piece_from_value` as a function of the value and the south-half bit of
the square. -/
def pieceFromCode (value : Nat) (south : Bool) : Piece :=
  if value = 0 then ⟨Color.White, Role.Pawn⟩
  else if value = 1 then ⟨Color.Black, Role.Pawn⟩
  else if value = 2 then ⟨Color.White, Role.Knight⟩
  else if value = 3 then ⟨Color.Black, Role.Knight⟩
  else if value = 4 then ⟨Color.White, Role.Bishop⟩
  else if value = 5 then ⟨Color.Black, Role.Bishop⟩
  else if value = 6 ∨ value = 13 then ⟨Color.White, Role.Rook⟩
  else if value = 7 ∨ value = 14 then ⟨Color.Black, Role.Rook⟩
  else if value = 8 then ⟨Color.White, Role.Queen⟩
  else if value = 9 then ⟨Color.Black, Role.Queen⟩
  else if value = 10 then ⟨Color.White, Role.King⟩
  else if value = 11 ∨ value = 15 then ⟨Color.Black, Role.King⟩
  else if value = 12 then
    ⟨if south then Color.White else Color.Black, Role.Pawn⟩
  else ⟨Color.White, Role.Pawn⟩

theorem pieceValue_eq_pieceCode (c : Color) (role : Role) (sq : Nat)
    (bt : Bool) (r pp : Nat) :
    pieceValue ⟨c, role⟩ sq bt r pp
      = pieceCode c role (pp.testBit sq) (r.testBit sq) bt := by
  cases c <;> cases role <;> rfl

theorem pieceFromValue_eq_pieceFromCode (value sq : Nat) :
    pieceFromValue value sq = pieceFromCode value (decide (sq ≤ 31)) := by
  by_cases hs : sq ≤ 31 <;>
    simp [pieceFromValue, pieceFromCode, hs]

/-- The finite facts about the 4-bit codes: 12 is a pushed pawn, 13/14 are
castling rooks, 15 is the black king on Black's turn, all codes are
nibbles, and decoding inverts encoding when a pushed pawn's color agrees
with its board half. -/
theorem pieceCode_facts : ∀ (c : Color) (role : Role) (pb rb bt : Bool),
    (pieceCode c role pb rb bt = 12 → pb = true ∧ role = Role.Pawn)
    ∧ (pieceCode c role pb rb bt = 13 ∨ pieceCode c role pb rb bt = 14 →
        rb = true ∧ role = Role.Rook)
    ∧ (pieceCode c role pb rb bt = 15
        ↔ (c = Color.Black ∧ role = Role.King ∧ bt = true))
    ∧ pieceCode c role pb rb bt < 16
    ∧ (role = Role.Rook → rb = true →
        (pieceCode c role pb rb bt = 13 ∨ pieceCode c role pb rb bt = 14))
    ∧ (role = Role.Pawn → pb = true → pieceCode c role pb rb bt = 12)
    ∧ (pieceCode c role pb rb bt = 12 → pb = true) := by decide

theorem pieceCode_recover : ∀ (c : Color) (role : Role) (pb rb bt south : Bool),
    (pb = true → role = Role.Pawn → (south = true ↔ c = Color.White)) →
    pieceFromCode (pieceCode c role pb rb bt) south = ⟨c, role⟩ := by decide

theorem getElem?_boardGet (b : List (Option Piece)) (j : Nat)
    (hj : j < b.length) : b[j]? = some (boardGet b j) := by
  rw [List.getElem?_eq_getElem hj]
  unfold boardGet
  rw [List.getD_eq_getElem?_getD, List.getElem?_eq_getElem hj]
  rfl

/-- The board written by the placement fold equals the original board. -/
theorem board_recover (b : List (Option Piece)) (bt : Bool) (rights pushed : Nat)
    (hlen : b.length = 64)
    (hpc : ∀ sq p, pushed.testBit sq = true → boardGet b sq = some p →
      p.role = Role.Pawn → ((sq ≤ 31) ↔ p.color = Color.White)) :
    ((occupiedList b).map
        (fun y => (y.1, pieceValue y.2 y.1 bt rights pushed))).foldl
      (fun bb x => bb.set x.1 (some (pieceFromValue x.2 x.1)))
      (List.replicate 64 (none : Option Piece)) = b := by
  apply List.ext_getElem?
  intro j
  by_cases hj : j < 64
  · cases hb : boardGet b j with
    | some p =>
      have hmem : (j, p) ∈ occupiedList b := (mem_occupiedList b j p).mpr ⟨hj, hb⟩
      obtain ⟨l1, l2, hsplit⟩ := List.append_of_mem hmem
      have hnodup := nodup_occupiedList_fst b
      rw [hsplit] at hnodup
      simp only [List.map_append, List.map_cons] at hnodup
      have hj2 : j ∉ l2.map Prod.fst := by
        have hsub : (j :: l2.map Prod.fst).Sublist
            (l1.map Prod.fst ++ j :: l2.map Prod.fst) :=
          List.sublist_append_right _ _
        exact (List.nodup_cons.mp (hsub.nodup hnodup)).1
      have hMsplit : (occupiedList b).map
          (fun y => (y.1, pieceValue y.2 y.1 bt rights pushed))
          = l1.map (fun y => (y.1, pieceValue y.2 y.1 bt rights pushed))
            ++ (j, pieceValue p j bt rights pushed)
              :: l2.map (fun y => (y.1, pieceValue y.2 y.1 bt rights pushed)) := by
        rw [hsplit]
        simp
      rw [hMsplit, boardFold_mem _ _ j _ _ (by simp [List.length_replicate]; omega)
        (by
          intro x hx
          obtain ⟨y, hy, hxy⟩ := List.mem_map.mp hx
          rw [← hxy]
          intro hyj
          exact hj2 (List.mem_map.mpr ⟨y, hy, hyj⟩))]
      rw [getElem?_boardGet b j (by omega), hb]
      obtain ⟨c, role⟩ := p
      rw [pieceValue_eq_pieceCode, pieceFromValue_eq_pieceFromCode]
      rw [pieceCode_recover c role _ _ bt _ (fun hpb hrole => by
        have := hpc j ⟨c, role⟩ hpb hb hrole
        simpa using this)]
    | none =>
      rw [boardFold_notMem _ _ j (by
        intro x hx
        obtain ⟨y, hy, hxy⟩ := List.mem_map.mp hx
        rw [← hxy]
        intro hyj
        obtain ⟨sq, q⟩ := y
        simp only at hyj
        rw [hyj] at hy
        rw [((mem_occupiedList b j q).mp hy).2] at hb
        exact Option.noConfusion hb)]
      rw [getElem?_boardGet b j (by omega), hb]
      exact List.getElem?_replicate_of_lt hj
  · rw [List.getElem?_eq_none, List.getElem?_eq_none]
    · omega
    · rw [boardFold_length, List.length_replicate]
      omega

/-- The castling rights accumulated from the 13/14 codes equal the original
rights bitboard. -/
theorem rights_recover (b : List (Option Piece)) (bt : Bool)
    (rights pushed : Nat) (hcr64 : rights < 2 ^ 64)
    (hcr : ∀ sq, sq < 64 → rights.testBit sq = true →
      (match boardGet b sq with
        | some pc => decide (pc.role = Role.Rook)
        | none => false) = true) :
    ((occupiedList b).map
        (fun y => (y.1, pieceValue y.2 y.1 bt rights pushed))).foldl
      (fun r2 x => if x.2 = 13 ∨ x.2 = 14 then r2 ||| (1 <<< x.1) else r2) 0
      = rights := by
  apply Nat.eq_of_testBit_eq
  intro j
  rw [rightsFold_testBit]
  simp only [Nat.zero_testBit, Bool.false_or]
  by_cases hj : j < 64
  · cases hr : rights.testBit j with
    | false =>
      rw [List.any_eq_false]
      intro x hx
      obtain ⟨y, hy, hxy⟩ := List.mem_map.mp hx
      obtain ⟨sq, p⟩ := y
      rw [← hxy]
      simp only [decide_eq_true_eq, not_and]
      intro hv hsq
      obtain ⟨c, role⟩ := p
      rw [pieceValue_eq_pieceCode] at hv
      have hfact := (pieceCode_facts c role (pushed.testBit sq)
        (rights.testBit sq) bt).2.1 hv
      rw [hsq] at hfact
      rw [hfact.1] at hr
      exact Bool.noConfusion hr
    | true =>
      have hmatch := hcr j hj hr
      cases hb : boardGet b j with
      | none => rw [hb] at hmatch; exact Bool.noConfusion hmatch
      | some p =>
        rw [hb] at hmatch
        simp only [decide_eq_true_eq] at hmatch
        obtain ⟨c, role⟩ := p
        simp only at hmatch
        subst hmatch
        have hmem : (j, (⟨c, Role.Rook⟩ : Piece)) ∈ occupiedList b :=
          (mem_occupiedList b j _).mpr ⟨hj, hb⟩
        rw [List.any_eq_true]
        refine ⟨(j, pieceValue ⟨c, Role.Rook⟩ j bt rights pushed),
          List.mem_map.mpr ⟨_, hmem, rfl⟩, ?_⟩
        simp only [decide_eq_true_eq]
        rw [pieceValue_eq_pieceCode]
        exact ⟨(pieceCode_facts c Role.Rook _ _ bt).2.2.2.2.1 rfl hr, trivial⟩
  · cases hr : rights.testBit j with
    | false =>
      rw [List.any_eq_false]
      intro x hx
      obtain ⟨y, hy, hxy⟩ := List.mem_map.mp hx
      have := occupiedList_sq_lt b y hy
      rw [← hxy]
      simp only [decide_eq_true_eq, not_and]
      omega
    | true =>
      exfalso
      have := Nat.testBit_implies_ge hr
      have h2 : (2 : Nat) ^ 64 ≤ 2 ^ j := Nat.pow_le_pow_right (by omega) (by omega)
      omega

/-- With no en-passant square the empty pushed-to bitboard produces no code
12, so the decoded en-passant square stays `none`. -/
theorem ep_recover_none (b : List (Option Piece)) (bt : Bool) (rights : Nat) :
    ((occupiedList b).map
        (fun y => (y.1, pieceValue y.2 y.1 bt rights 0))).foldl
      (fun e2 x => if x.2 = 12 then some (epOf x.1) else e2) none = none := by
  apply epFold_no12
  intro x hx
  obtain ⟨y, hy, hxy⟩ := List.mem_map.mp hx
  obtain ⟨sq, p⟩ := y
  obtain ⟨c, role⟩ := p
  rw [← hxy]
  simp only
  rw [pieceValue_eq_pieceCode]
  intro hv
  have := (pieceCode_facts c role _ _ bt).2.2.2.2.2.2 hv
  rw [Nat.zero_testBit] at this
  exact Bool.noConfusion this

/-- With a single-bit pushed-to bitboard over a pawn square, the decoded
en-passant square is the offset of that square. -/
theorem ep_recover_some (b : List (Option Piece)) (bt : Bool)
    (rights psq : Nat) (p : Piece) (hpsq : psq < 64)
    (hb : boardGet b psq = some p) (hrole : p.role = Role.Pawn) :
    ((occupiedList b).map
        (fun y => (y.1, pieceValue y.2 y.1 bt rights (1 <<< psq)))).foldl
      (fun e2 x => if x.2 = 12 then some (epOf x.1) else e2) none
      = some (epOf psq) := by
  have hmem : (psq, p) ∈ occupiedList b := (mem_occupiedList b psq p).mpr ⟨hpsq, hb⟩
  obtain ⟨l1, l2, hsplit⟩ := List.append_of_mem hmem
  have hnodup := nodup_occupiedList_fst b
  rw [hsplit] at hnodup
  simp only [List.map_append, List.map_cons] at hnodup
  have hp2 : psq ∉ l2.map Prod.fst := by
    have hsub : (psq :: l2.map Prod.fst).Sublist
        (l1.map Prod.fst ++ psq :: l2.map Prod.fst) :=
      List.sublist_append_right _ _
    exact (List.nodup_cons.mp (hsub.nodup hnodup)).1
  obtain ⟨c, role⟩ := p
  simp only at hrole
  subst hrole
  have hv12 : pieceValue ⟨c, Role.Pawn⟩ psq bt rights (1 <<< psq) = 12 := by
    rw [pieceValue_eq_pieceCode]
    apply (pieceCode_facts c Role.Pawn _ _ bt).2.2.2.2.2.1 rfl
    simp [Nat.one_shiftLeft, Nat.testBit_two_pow]
  have hMsplit : (occupiedList b).map
      (fun y => (y.1, pieceValue y.2 y.1 bt rights (1 <<< psq)))
      = l1.map (fun y => (y.1, pieceValue y.2 y.1 bt rights (1 <<< psq)))
        ++ (psq, 12)
          :: l2.map (fun y => (y.1, pieceValue y.2 y.1 bt rights (1 <<< psq))) := by
    rw [hsplit]
    simp [hv12]
  rw [hMsplit]
  apply epFold_12
  intro x hx
  obtain ⟨y, hy, hxy⟩ := List.mem_map.mp hx
  obtain ⟨sq, q⟩ := y
  obtain ⟨c2, role2⟩ := q
  rw [← hxy]
  simp only
  rw [pieceValue_eq_pieceCode]
  intro hv
  have hpb := (pieceCode_facts c2 role2 _ _ bt).2.2.2.2.2.2 hv
  rw [Nat.one_shiftLeft, Nat.testBit_two_pow] at hpb
  have hsq : sq = psq := by
    have : psq = sq := by simpa using hpb
    omega
  apply hp2
  rw [← hsq]
  exact List.mem_map.mpr ⟨(sq, ⟨c2, role2⟩), hy, rfl⟩

/-- The decoded side to move after the placements: Black exactly when Black
is to move and a black king is on the board. -/
theorem turn_recover (b : List (Option Piece)) (bt : Bool)
    (rights pushed : Nat) :
    (((occupiedList b).map
        (fun y => (y.1, pieceValue y.2 y.1 bt rights pushed))).any
      (fun x => decide (x.2 = 15))) = true
      ↔ (bt = true ∧ ∃ j, j < 64
          ∧ boardGet b j = some ⟨Color.Black, Role.King⟩) := by
  rw [List.any_eq_true]
  constructor
  · rintro ⟨x, hx, hv⟩
    obtain ⟨y, hy, hxy⟩ := List.mem_map.mp hx
    obtain ⟨sq, q⟩ := y
    obtain ⟨c, role⟩ := q
    rw [← hxy] at hv
    simp only [decide_eq_true_eq] at hv
    rw [pieceValue_eq_pieceCode] at hv
    obtain ⟨hc, hrole, hbt⟩ := (pieceCode_facts c role _ _ bt).2.2.1.mp hv
    subst hc
    subst hrole
    have hm := (mem_occupiedList b sq _).mp hy
    exact ⟨hbt, sq, hm.1, hm.2⟩
  · rintro ⟨hbt, j, hj, hb⟩
    refine ⟨(j, pieceValue ⟨Color.Black, Role.King⟩ j bt rights pushed),
      List.mem_map.mpr ⟨_, (mem_occupiedList b j _).mpr ⟨hj, hb⟩, rfl⟩, ?_⟩
    simp only [decide_eq_true_eq]
    rw [pieceValue_eq_pieceCode]
    exact (pieceCode_facts Color.Black Role.King _ _ bt).2.2.1.mpr ⟨rfl, rfl, hbt⟩

theorem blackKingAbsent_false_iff (b : List (Option Piece))
    (hlen : b.length = 64) :
    blackKingAbsent b = false
      ↔ ∃ j, j < 64 ∧ boardGet b j = some ⟨Color.Black, Role.King⟩ := by
  unfold blackKingAbsent
  rw [← Bool.not_eq_true, List.all_eq_true]
  simp only [decide_eq_true_eq, not_forall]
  constructor
  · rintro ⟨x, hx, hxv⟩
    simp only [not_not] at hxv
    obtain ⟨j, hj, hget⟩ := List.mem_iff_getElem.mp hx
    refine ⟨j, by omega, ?_⟩
    unfold boardGet
    rw [List.getD_eq_getElem?_getD, List.getElem?_eq_getElem hj]
    simp [hget, hxv]
  · rintro ⟨j, hj, hget⟩
    refine ⟨some ⟨Color.Black, Role.King⟩, ?_, by simp⟩
    have := getElem?_boardGet b j (by omega)
    rw [hget] at this
    exact List.mem_iff_getElem?.mpr ⟨j, this⟩

/-- Decompressing the board part of the compressed position reaches the clock
phase with every field of the original position (the side to move provisional:
Black iff Black moved and has a king, pending the ply-count correction). -/
theorem decompress_shape (P : Setup) (pushed : Nat) (tail : List Nat)
    (hlen : P.board.length = 64)
    (hcr64 : P.castlingRights < 2 ^ 64)
    (hcr : ∀ sq, sq < 64 → P.castlingRights.testBit sq = true →
      (match boardGet P.board sq with
        | some pc => decide (pc.role = Role.Rook)
        | none => false) = true)
    (hpc : ∀ sq p, pushed.testBit sq = true → boardGet P.board sq = some p →
      p.role = Role.Pawn → ((sq ≤ 31) ↔ p.color = Color.White))
    (hoffok : ∀ sq, pushed.testBit sq = true →
      (sq ≤ 31 → 8 ≤ sq) ∧ (31 < sq → sq + 8 < 64))
    (hepfold : ((occupiedList P.board).map
        (fun y => (y.1, pieceValue y.2 y.1 (decide (P.turn = Color.Black))
          P.castlingRights pushed))).foldl
      (fun e2 x => if x.2 = 12 then some (epOf x.1) else e2) none
        = P.epSquare) :
    Setup.decompress (beBytes 8 (occupiedBB P.board)
        ++ packNibbles ((occupiedList P.board).map
          (fun x => pieceValue x.2 x.1 (decide (P.turn = Color.Black))
            P.castlingRights pushed))
        ++ tail)
      = decompTail
          ⟨P.board,
           if P.turn = Color.Black ∧ blackKingAbsent P.board = false
             then Color.Black else Color.White,
           P.castlingRights, P.epSquare, 0, 1⟩ tail := by
  have h2568 : (256 : Nat) ^ 8 = 2 ^ 64 := by norm_num
  have hocc : occupiedBB P.board < 256 ^ 8 := by
    rw [h2568]
    exact occupiedBB_lt P.board
  have hlen2 : ((occupiedList P.board).map Prod.fst).length
      = ((occupiedList P.board).map
        (fun x => pieceValue x.2 x.1 (decide (P.turn = Color.Black))
          P.castlingRights pushed)).length := by
    simp
  have hnib : ∀ v ∈ (occupiedList P.board).map
      (fun x => pieceValue x.2 x.1 (decide (P.turn = Color.Black))
        P.castlingRights pushed), v < 16 := by
    intro v hv
    obtain ⟨y, hy, hyv⟩ := List.mem_map.mp hv
    rw [← hyv]
    exact pieceValue_lt y.2 y.1 _ _ _
  have hzip : ((occupiedList P.board).map Prod.fst).zip
      ((occupiedList P.board).map
        (fun x => pieceValue x.2 x.1 (decide (P.turn = Color.Black))
          P.castlingRights pushed))
      = (occupiedList P.board).map
        (fun y => (y.1, pieceValue y.2 y.1 (decide (P.turn = Color.Black))
          P.castlingRights pushed)) := by
    rw [List.zip_map']
  have hplace : ∀ x ∈ (occupiedList P.board).map
      (fun y => (y.1, pieceValue y.2 y.1 (decide (P.turn = Color.Black))
        P.castlingRights pushed)),
      x.1 < 64 ∧ (x.2 = 12 → (x.1 ≤ 31 → 8 ≤ x.1) ∧ (31 < x.1 → x.1 + 8 < 64)) := by
    intro x hx
    obtain ⟨y, hy, hxy⟩ := List.mem_map.mp hx
    obtain ⟨sq, q⟩ := y
    obtain ⟨c, role⟩ := q
    rw [← hxy]
    refine ⟨occupiedList_sq_lt P.board _ hy, ?_⟩
    simp only
    rw [pieceValue_eq_pieceCode]
    intro hv
    exact hoffok sq ((pieceCode_facts c role _ _ _).2.2.2.2.2.2 hv)
  unfold Setup.decompress
  rw [if_neg (by simp [beBytes_length]), List.append_assoc,
    List.take_left' (beBytes_length 8 _), List.drop_left' (beBytes_length 8 _),
    fromBe_beBytes 8 _ hocc]
  simp only [bitsList_occupiedBB]
  rw [decompAux_pack _ _ tail Setup.empty hlen2 hnib, hzip,
    placeFold_ok _ Setup.empty hplace, stateFold_eq]
  show decompTail _ tail = _
  have hboard := board_recover P.board (decide (P.turn = Color.Black))
    P.castlingRights pushed hlen hpc
  have hrights := rights_recover P.board (decide (P.turn = Color.Black))
    P.castlingRights pushed hcr64 hcr
  have hturn : (if ((occupiedList P.board).map
      (fun y => (y.1, pieceValue y.2 y.1 (decide (P.turn = Color.Black))
        P.castlingRights pushed))).any (fun x => decide (x.2 = 15))
      then Color.Black else Color.White)
      = (if P.turn = Color.Black ∧ blackKingAbsent P.board = false
          then Color.Black else Color.White) := by
    by_cases hany : (((occupiedList P.board).map
        (fun y => (y.1, pieceValue y.2 y.1 (decide (P.turn = Color.Black))
          P.castlingRights pushed))).any (fun x => decide (x.2 = 15))) = true
    · obtain ⟨hbt, j, hj, hb⟩ := (turn_recover P.board _ _ _).mp hany
      rw [if_pos hany, if_pos ⟨by simpa using hbt,
        (blackKingAbsent_false_iff P.board hlen).mpr ⟨j, hj, hb⟩⟩]
    · rw [if_neg hany, if_neg]
      rintro ⟨hbt, habs⟩
      obtain ⟨j, hj, hb⟩ := (blackKingAbsent_false_iff P.board hlen).mp habs
      exact hany ((turn_recover P.board _ _ _).mpr
        ⟨by simpa using hbt, j, hj, hb⟩)
  simp only [Setup.empty]
  rw [hboard, hrights, hturn, hepfold]

/-- The clock phase of `decompress` restores halfmoves, fullmoves and the
side to move from the optional LEB128 fields exactly as `compress` wrote
them. -/
theorem decompTail_ok (P : Setup)
    (hf1 : 1 ≤ P.fullmoves) (hf2 : P.fullmoves ≤ 2 ^ 31)
    (hhm : P.halfmoves < 2 ^ 32) :
    decompTail
      ⟨P.board,
        if P.turn = Color.Black ∧ blackKingAbsent P.board = false
          then Color.Black else Color.White,
        P.castlingRights, P.epSquare, 0, 1⟩
      ((if 0 < P.halfmoves
            ∨ 1 < ((P.fullmoves - 1) * 2
                + if P.turn = Color.Black then 1 else 0) % 2 ^ 32
            ∨ (P.turn = Color.Black ∧ blackKingAbsent P.board = true)
          then lebWrite P.halfmoves else [])
        ++ (if 1 < ((P.fullmoves - 1) * 2
                + if P.turn = Color.Black then 1 else 0) % 2 ^ 32
              ∨ (P.turn = Color.Black ∧ blackKingAbsent P.board = true)
          then lebWrite (((P.fullmoves - 1) * 2
              + if P.turn = Color.Black then 1 else 0) % 2 ^ 32) else []))
      = .ok P := by
  obtain ⟨bd, t, cr, ep, hm, fm⟩ := P
  dsimp only at hf1 hf2 hhm ⊢
  have hply : ((fm - 1) * 2 + if t = Color.Black then 1 else 0) % 2 ^ 32
      = (fm - 1) * 2 + (if t = Color.Black then 1 else 0) := by
    apply Nat.mod_eq_of_lt
    cases t <;> simp <;> omega
  rw [hply]
  by_cases hc2 : 1 < (fm - 1) * 2 + (if t = Color.Black then 1 else 0)
      ∨ (t = Color.Black ∧ blackKingAbsent bd = true)
  · rw [if_pos (Or.inr hc2), if_pos hc2]
    have hne1 : (lebWrite hm
        ++ lebWrite ((fm - 1) * 2 + if t = Color.Black then 1 else 0)).isEmpty
        = false := by
      cases hw : lebWrite hm with
      | nil => exact absurd hw (lebWrite_ne_nil hm)
      | cons a l => simp [hw]
    have hne2 : (lebWrite ((fm - 1) * 2
        + if t = Color.Black then 1 else 0)).isEmpty = false := by
      cases hw : lebWrite ((fm - 1) * 2 + if t = Color.Black then 1 else 0) with
      | nil => exact absurd hw (lebWrite_ne_nil _)
      | cons a l => simp [hw]
    have hp1 := lebRead_lebWrite ((fm - 1) * 2
      + if t = Color.Black then 1 else 0) []
    rw [List.append_nil] at hp1
    simp only [decompTail, hne1, lebRead_lebWrite, hne2, hp1,
      Bool.false_eq_true, if_false, hply]
    cases t
    · have hev : ((fm - 1) * 2 + if Color.White = Color.Black then 1 else 0) % 2
          = 0 := by simp
      rw [if_neg (by omega : ¬ ((fm - 1) * 2
        + if Color.White = Color.Black then 1 else 0) % 2 = 1)]
      simp only [if_neg (by simp : ¬ (Color.White = Color.Black
        ∧ blackKingAbsent bd = false))]
      simp only [if_neg (by simp : ¬ (Color.White = Color.Black))]
      rw [Nat.mod_eq_of_lt hhm]
      have hfm : ((fm - 1) * 2 + 0 - 0) / 2 + 1 = fm := by omega
      rw [hfm]
    · have hodd : ((fm - 1) * 2 + if Color.Black = Color.Black then 1 else 0) % 2
          = 1 := by simp; omega
      rw [if_pos hodd]
      simp only [if_pos (rfl : Color.Black = Color.Black), if_true]
      rw [Nat.mod_eq_of_lt hhm]
      have hfm : ((fm - 1) * 2 + 1 - 1) / 2 + 1 = fm := by omega
      rw [hfm]
  · have hfix : fm = 1
        ∧ (if t = Color.Black ∧ blackKingAbsent bd = false
            then Color.Black else Color.White) = t := by
      obtain ⟨hply1, hbrk⟩ := not_or.mp hc2
      cases t
      · refine ⟨?_, by simp⟩
        simp only [if_neg (by simp : ¬ (Color.White = Color.Black))] at hply1
        omega
      · cases habs : blackKingAbsent bd with
        | true => exact absurd ⟨rfl, habs⟩ hbrk
        | false =>
          refine ⟨?_, by simp [habs]⟩
          simp only [if_pos (rfl : Color.Black = Color.Black)] at hply1
          omega
    rw [if_neg hc2, List.append_nil]
    by_cases hhm0 : 0 < hm
    · rw [if_pos (Or.inl hhm0)]
      have hne1 : (lebWrite hm).isEmpty = false := by
        cases hw : lebWrite hm with
        | nil => exact absurd hw (lebWrite_ne_nil hm)
        | cons a l => simp [hw]
      have hp0 := lebRead_lebWrite hm []
      rw [List.append_nil] at hp0
      simp only [decompTail, hne1, hp0, Bool.false_eq_true, if_false,
        List.isEmpty_nil, if_true]
      rw [Nat.mod_eq_of_lt hhm, hfix.1, hfix.2]
    · rw [if_neg (fun hor => Or.elim hor hhm0 hc2)]
      simp only [decompTail, List.isEmpty_nil, if_true]
      rw [hfix.2, hfix.1, show hm = 0 by omega]

/-- Round-trip core: under the legality side conditions, `compress` succeeds
and `decompress` restores the position exactly. -/
theorem roundtrip_core (P : Setup) (pushed : Nat)
    (hlen : P.board.length = 64)
    (hf1 : 1 ≤ P.fullmoves) (hf2 : P.fullmoves ≤ 2 ^ 31)
    (hhm : P.halfmoves < 2 ^ 32)
    (hcr64 : P.castlingRights < 2 ^ 64)
    (hcr : ∀ sq, sq < 64 → P.castlingRights.testBit sq = true →
      (match boardGet P.board sq with
        | some pc => decide (pc.role = Role.Rook)
        | none => false) = true)
    (hpb : pawnPushedToBB P = .ok pushed)
    (hpc : ∀ sq p, pushed.testBit sq = true → boardGet P.board sq = some p →
      p.role = Role.Pawn → ((sq ≤ 31) ↔ p.color = Color.White))
    (hoffok : ∀ sq, pushed.testBit sq = true →
      (sq ≤ 31 → 8 ≤ sq) ∧ (31 < sq → sq + 8 < 64))
    (hepfold : ((occupiedList P.board).map
        (fun y => (y.1, pieceValue y.2 y.1 (decide (P.turn = Color.Black))
          P.castlingRights pushed))).foldl
      (fun e2 x => if x.2 = 12 then some (epOf x.1) else e2) none
        = P.epSquare) :
    ∃ bs, Setup.compress P = .ok bs ∧ Setup.decompress bs = .ok P := by
  have hcomp : Setup.compress P
      = .ok (beBytes 8 (occupiedBB P.board)
        ++ packNibbles ((occupiedList P.board).map
          (fun x => pieceValue x.2 x.1 (decide (P.turn = Color.Black))
            P.castlingRights pushed))
        ++ ((if 0 < P.halfmoves
              ∨ 1 < ((P.fullmoves - 1) * 2
                  + if P.turn = Color.Black then 1 else 0) % 2 ^ 32
              ∨ (P.turn = Color.Black ∧ blackKingAbsent P.board = true)
            then lebWrite P.halfmoves else [])
          ++ (if 1 < ((P.fullmoves - 1) * 2
                  + if P.turn = Color.Black then 1 else 0) % 2 ^ 32
                ∨ (P.turn = Color.Black ∧ blackKingAbsent P.board = true)
            then lebWrite (((P.fullmoves - 1) * 2
                + if P.turn = Color.Black then 1 else 0) % 2 ^ 32) else []))) := by
    unfold Setup.compress
    rw [hpb]
    exact congrArg Except.ok (append_ifs _ _ _ _ _)
  refine ⟨_, hcomp, ?_⟩
  rw [decompress_shape P pushed _ hlen hcr64 hcr hpc hoffok hepfold]
  exact decompTail_ok P hf1 hf2 hhm

/-- C2: Position round trip: for every legal chess position `P` (board of 64
squares, clocks in `u32` range with `fullmoves ≥ 1`, castling rights on rook
squares, and the en-passant square backed by the double-pushed pawn on the
pushed-to square), `decompress (compress P)` returns `Ok P` — board, side to
move, castling rights, en-passant square, halfmove clock and fullmove counter
all round-trip. -/
theorem claim_C2_position_roundtrip (P : Setup)
    (hlen : P.board.length = 64)
    (hf1 : 1 ≤ P.fullmoves) (hf2 : P.fullmoves ≤ 2 ^ 31)
    (hhm : P.halfmoves < 2 ^ 32)
    (hcr64 : P.castlingRights < 2 ^ 64)
    (hcr : ∀ sq, sq < 64 → P.castlingRights.testBit sq = true →
      (match boardGet P.board sq with
        | some pc => decide (pc.role = Role.Rook)
        | none => false) = true)
    (hep : (match P.epSquare, P.turn with
        | none, _ => true
        | some e, Color.Black => decide (16 ≤ e ∧ e ≤ 23
            ∧ boardGet P.board (e + 8) = some ⟨Color.White, Role.Pawn⟩)
        | some e, Color.White => decide (40 ≤ e ∧ e ≤ 47
            ∧ boardGet P.board (e - 8) = some ⟨Color.Black, Role.Pawn⟩))
        = true) :
    ∃ bs, Setup.compress P = Except.ok bs
      ∧ Setup.decompress bs = Except.ok P := by
  cases hepc : P.epSquare with
  | none =>
    apply roundtrip_core P 0 hlen hf1 hf2 hhm hcr64 hcr
    · unfold pawnPushedToBB
      rw [hepc]
    · intro sq p htb
      rw [Nat.zero_testBit] at htb
      exact absurd htb (by simp)
    · intro sq htb
      rw [Nat.zero_testBit] at htb
      exact absurd htb (by simp)
    · rw [hepc]
      exact ep_recover_none P.board _ _
  | some e =>
    cases ht : P.turn with
    | Black =>
      rw [hepc, ht] at hep
      simp only [decide_eq_true_eq] at hep
      obtain ⟨he1, he2, hb⟩ := hep
      apply roundtrip_core P (1 <<< (e + 8)) hlen hf1 hf2 hhm hcr64 hcr
      · have hso := squareOffset_add e 8 (by omega)
        simp only [Nat.cast_ofNat] at hso
        simp [pawnPushedToBB, hepc, ht, hso]
      · intro sq p htb hbg hrole
        rw [Nat.one_shiftLeft, Nat.testBit_two_pow] at htb
        have hsq : sq = e + 8 := by
          have := of_decide_eq_true htb
          omega
        rw [hsq, hb] at hbg
        have hp : p = ⟨Color.White, Role.Pawn⟩ := (Option.some.injEq _ _).mp hbg.symm
        constructor
        · intro
          rw [hp]
        · intro
          omega
      · intro sq htb
        rw [Nat.one_shiftLeft, Nat.testBit_two_pow] at htb
        have hsq : sq = e + 8 := by
          have := of_decide_eq_true htb
          omega
        constructor <;> intro <;> omega
      · rw [hepc]
        rw [ep_recover_some P.board _ P.castlingRights (e + 8)
          ⟨Color.White, Role.Pawn⟩ (by omega) hb rfl]
        simp only [epOf, Option.some.injEq]
        rw [if_pos (by omega)]
        omega
    | White =>
      rw [hepc, ht] at hep
      simp only [decide_eq_true_eq] at hep
      obtain ⟨he1, he2, hb⟩ := hep
      apply roundtrip_core P (1 <<< (e - 8)) hlen hf1 hf2 hhm hcr64 hcr
      · have hso := squareOffset_sub e 8 (by omega) (by omega)
        simp only [Nat.cast_ofNat] at hso
        simp [pawnPushedToBB, hepc, ht, hso]
      · intro sq p htb hbg hrole
        rw [Nat.one_shiftLeft, Nat.testBit_two_pow] at htb
        have hsq : sq = e - 8 := by
          have := of_decide_eq_true htb
          omega
        rw [hsq, hb] at hbg
        have hp : p = ⟨Color.Black, Role.Pawn⟩ := (Option.some.injEq _ _).mp hbg.symm
        constructor
        · intro hle
          omega
        · intro hcw
          rw [hp] at hcw
          exact absurd hcw (by simp)
      · intro sq htb
        rw [Nat.one_shiftLeft, Nat.testBit_two_pow] at htb
        have hsq : sq = e - 8 := by
          have := of_decide_eq_true htb
          omega
        constructor <;> intro <;> omega
      · rw [hepc]
        rw [ep_recover_some P.board _ P.castlingRights (e - 8)
          ⟨Color.Black, Role.Pawn⟩ (by omega) hb rfl]
        simp only [epOf, Option.some.injEq]
        rw [if_neg (by omega)]
        omega

/-- A concrete legal position exercising the en-passant branch: kings e1/e8,
a White pawn just double-pushed to e4, Black to move with ep square e3. -/
def c2Position : Setup :=
  ⟨(((List.replicate 64 (none : Option Piece)).set 4
        (some ⟨Color.White, Role.King⟩)).set 28
      (some ⟨Color.White, Role.Pawn⟩)).set 60
    (some ⟨Color.Black, Role.King⟩),
   Color.Black, 0, some 20, 0, 3⟩

theorem claim_C2_witness :
    ∃ bs, Setup.compress c2Position = Except.ok bs
      ∧ Setup.decompress bs = Except.ok c2Position :=
  claim_C2_position_roundtrip c2Position (by decide) (by decide) (by decide)
    (by decide) (by decide)
    (fun sq h1 h2 => by
      rw [show c2Position.castlingRights = 0 from rfl, Nat.zero_testBit] at h2
      exact absurd h2 (by decide))
    (by decide)
